import Mathlib

/-
Verification of tools/dependency_summary.py: the license/dependency
compliance report generator.  The Python source is shallowly embedded
below: pure helper functions become Lean functions, fatal errors
(assertions and raised RuntimeErrors) become Except values, and the
effectful license-text fetch is modelled by the action it decides on.
-/

namespace DepSummary

/-! ## Basic string utilities mirroring Python primitives -/

/-- Whitespace characters, as recognised by the ASCII fragment of Python's
regex class and of str.split: space, tab, newline, carriage return,
vertical tab, form feed. -/
def isWs (c : Char) : Bool :=
  c == ' ' || c == '\t' || c == '\n' || c == '\r' || c == '\x0b' || c == '\x0c'

/-- Test whether the first character list starts the second one. -/
def listLeads : List Char → List Char → Bool
  | [], _ => true
  | _ :: _, [] => false
  | a :: as, b :: bs => a == b && listLeads as bs

/-- Test whether the first character list occurs contiguously inside the
second one; mirrors the Python expression needle in haystack. -/
def listHasSub (needle : List Char) : List Char → Bool
  | [] => listLeads needle []
  | b :: bs => listLeads needle (b :: bs) || listHasSub needle bs

/-- Python s.startswith(p). -/
def strLeads (p s : String) : Bool := listLeads p.data s.data

/-- Python s.endswith(p). -/
def strEnds (p s : String) : Bool := listLeads p.data.reverse s.data.reverse

/-- Python needle in s, for strings. -/
def strHasSub (needle s : String) : Bool := listHasSub needle.data s.data

/-- Lexicographic order on character lists by code point; this is exactly
how Python compares strings. -/
def charListLe : List Char → List Char → Bool
  | [], _ => true
  | _ :: _, [] => false
  | a :: as, b :: bs => if a < b then true else if b < a then false else charListLe as bs

/-- Python string comparison. -/
def strLe (a b : String) : Bool := charListLe a.data b.data

/-- Python comparison of lists of strings (elementwise lexicographic). -/
def strListLe : List String → List String → Bool
  | [], _ => true
  | _ :: _, [] => false
  | a :: as, b :: bs => if a = b then strListLe as bs else strLe a b

/-- Insert an element into a list so that, on a sorted list, the result is
sorted and the element lands before no element it is greater than; used to
build a stable sort matching Python's list.sort. -/
def insertLe (le : α → α → Bool) (a : α) : List α → List α
  | [] => [a]
  | b :: bs => if le a b then a :: b :: bs else b :: insertLe le a bs

/-- Stable insertion sort; denotationally equal to Python's stable
list.sort with respect to any total preorder given as a key. -/
def sortLe (le : α → α → Bool) : List α → List α
  | [] => []
  | a :: as => insertLe le a (sortLe le as)

/-- Remove adjacent duplicates; composed with sortLe this computes
Python's sorted set of a list. -/
def dedupAdj [BEq α] : List α → List α
  | [] => []
  | [a] => [a]
  | a :: b :: rest => if a == b then dedupAdj (b :: rest) else a :: dedupAdj (b :: rest)

/-- Association-list lookup, mirroring a Python dict's get. -/
def assocLookup [BEq κ] : List (κ × ν) → κ → Option ν
  | [], _ => none
  | (k, v) :: rest, key => if k == key then some v else assocLookup rest key

/-- Python s.lower() (ASCII fragment, which is all the source needs). -/
def strToLower (s : String) : String := ⟨s.data.map Char.toLower⟩

/-- Remove every whitespace character of a string; this is the Python
idiom of joining the str.split() pieces with the empty string. -/
def stripAllWs (s : String) : String := ⟨s.data.filter (fun c => !isWs c)⟩

/-- Drop leading whitespace. -/
def dropWs (cs : List Char) : List Char := cs.dropWhile isWs

/-- Python s.strip(): drop leading and trailing whitespace. -/
def stripChars (s : List Char) : List Char :=
  (dropWs ((dropWs s).reverse)).reverse

/-! ## The license preference policy (pick_most_acceptable_license) -/

/-- The ordered license preference list of the source, most preferred
first. -/
def LICENSES_IN_PREFERENCE_ORDER : List String :=
  ["MPL-2.0", "Apache-2.0", "MIT", "CC0-1.0", "ISC", "BSD-2-Clause",
   "BSD-3-Clause", "Zlib", "Unicode-3.0", "EXT-OPENSSL", "EXT-SQLITE"]

/-- Try to match, at the head of the character list, the separator regex
of the source (an optional whitespace run, then either a slash or the
word OR with one mandatory whitespace character on each side, then an
optional whitespace run), with Python's leftmost greedy semantics.
Returns the characters remaining after the matched separator, or none
when no match starts here.  Because the whole whitespace run is consumed
greedily, a slash must sit directly after the run, and the word OR must
sit at the end of a nonempty run with a further whitespace after it. -/
def sepRest (cs : List Char) : Option (List Char) :=
  let w := (cs.takeWhile isWs).length
  match cs.drop w with
  | '/' :: r => some (dropWs r)
  | 'O' :: 'R' :: c :: r => if w ≥ 1 && isWs c then some (dropWs r) else none
  | _ => none

/-- Scan a character list left to right, splitting at every position
where the separator matcher fires, exactly as Python re.split does for a
pattern that cannot match the empty string.  The fuel argument is the
list length at the top call; every separator match consumes at least one
character, so the fuel never runs out. -/
def reSplitAux (sep : List Char → Option (List Char)) : Nat → List Char → List (List Char)
  | _, [] => [[]]
  | 0, cs => [cs]
  | fuel + 1, c :: cs =>
    match sep (c :: cs) with
    | some rest => [] :: reSplitAux sep fuel rest
    | none =>
      match reSplitAux sep fuel cs with
      | [] => [[c]]
      | p :: ps => (c :: p) :: ps

/-- The candidate license identifiers of an SPDX-ish expression: split on
the source's separator regex, then strip each piece.  Python collects
them into a set; a Lean list used only through membership is the same
thing. -/
def splitLicenses (licenseId : String) : List String :=
  (reSplitAux sepRest licenseId.data.length licenseId.data).map (fun p => ⟨stripChars p⟩)

/-- The data carried by the RuntimeError raised when no candidate license
is acceptable: the dependency id and the raw license expression. -/
structure PickError where
  depId : String
  rawLicense : String
deriving DecidableEq, Repr

/-- WorkspaceMetadata.pick_most_acceptable_license: two verbatim compound
exceptions pass through, otherwise the expression is split into candidate
identifiers and the first entry of the preference list found among them
is returned; a RuntimeError naming the dependency and the raw expression
is raised when none is found. -/
def pick_most_acceptable_license (id licenseId : String) : Except PickError String :=
  if licenseId = "(Apache-2.0 OR MIT) AND BSD-3-Clause" then .ok licenseId
  else if licenseId = "(MIT OR Apache-2.0) AND Unicode-3.0" then .ok licenseId
  else
    match LICENSES_IN_PREFERENCE_ORDER.find? (fun license => (splitLicenses licenseId).contains license) with
    | some license => .ok license
    | none => .error ⟨id, licenseId⟩

/-- Modelled from the claim's words, for comparison with the source: the
claim describes the split as being on a slash or on the literal token OR
surrounded by OPTIONAL whitespace, so here the word OR needs no
whitespace around it. -/
def sepRestClaim (cs : List Char) : Option (List Char) :=
  let w := (cs.takeWhile isWs).length
  match cs.drop w with
  | '/' :: r => some (dropWs r)
  | 'O' :: 'R' :: r => some (dropWs r)
  | _ => none

/-- Candidate identifiers under the claim's optional-whitespace reading. -/
def splitLicensesClaim (licenseId : String) : List String :=
  (reSplitAux sepRestClaim licenseId.data.length licenseId.data).map (fun p => ⟨stripChars p⟩)

/-- The claim's version of the license chooser, identical to the source
except for using the optional-whitespace split. -/
def pickClaimed (id licenseId : String) : Except PickError String :=
  if licenseId = "(Apache-2.0 OR MIT) AND BSD-3-Clause" then .ok licenseId
  else if licenseId = "(MIT OR Apache-2.0) AND Unicode-3.0" then .ok licenseId
  else
    match LICENSES_IN_PREFERENCE_ORDER.find? (fun license => (splitLicensesClaim licenseId).contains license) with
    | some license => .ok license
    | none => .error ⟨id, licenseId⟩

/-! ## Metadata fixup application (WorkspaceMetadata.__init__) -/

/-- One fixup rule of PACKAGE_METADATA_FIXUPS for one field.  The source
reads the expected value with change.get("check"), which yields None both
for an absent key and for an explicit null, so an Option models it
exactly; the replacement is applied only when a "fixup" key is present
(no rule of the table carries an explicit null fixup), so an Option
models that too. -/
structure FixupRule where
  check : Option String
  fixup : Option String
deriving DecidableEq, Repr

/-- A package's metadata record, as the mutable JSON-ish dict the source
works on: an association of field names to string values.  The source
only ever reads fixup-relevant fields through dict.get, which conflates
a missing field with a null one, so absence models both. -/
def Info : Type := List (String × String)

instance : DecidableEq Info := inferInstanceAs (DecidableEq (List (String × String)))

/-- Python info.get(key). -/
def infoGet (info : Info) (key : String) : Option String := assocLookup info key

/-- Python info[key] = v. -/
def infoSet : Info → String → String → Info
  | [], key, v => [(key, v)]
  | (k, w) :: rest, key, v =>
    if k = key then (key, v) :: rest else (k, w) :: infoSet rest key v

/-- The data carried by the failed assertion message, which identifies
the package, the field, the actual value and the expected value. -/
structure FixupError where
  pkg : String
  fieldName : String
  expected : Option String
  actual : Option String
deriving DecidableEq, Repr

/-- The body of the fixup loop of WorkspaceMetadata.__init__ for one
(field, rule) pair: assert that the current value equals the rule's
check, then overwrite the field when the rule carries a fixup. -/
def applyFixup (pkg : String) (info : Info) (fieldName : String) (rule : FixupRule) :
    Except FixupError Info :=
  if infoGet info fieldName = rule.check then
    .ok (match rule.fixup with
         | some v => infoSet info fieldName v
         | none => info)
  else
    .error ⟨pkg, fieldName, rule.check, infoGet info fieldName⟩

/-- The whole fixup loop for one package: apply each (field, rule) pair
in order, stopping at the first failed check. -/
def applyFixups (pkg : String) : List (String × FixupRule) → Info → Except FixupError Info
  | [], info => .ok info
  | (fieldName, rule) :: rest, info =>
    match applyFixup pkg info fieldName rule with
    | .error e => .error e
    | .ok info' => applyFixups pkg rest info'

/-- The fixup-applying part of catalog construction: every package's
configured rules are applied during WorkspaceMetadata.__init__, and a
failed check aborts the whole construction, so no catalog exists on
error. -/
def buildCatalog (fixupsOf : String → List (String × FixupRule)) :
    List (String × Info) → Except FixupError (List (String × Info))
  | [] => .ok []
  | (pkg, info) :: rest =>
    match applyFixups pkg (fixupsOf pkg) info with
    | .error e => .error e
    | .ok info' =>
      match buildCatalog fixupsOf rest with
      | .error e => .error e
      | .ok out => .ok ((pkg, info') :: out)

/-- The PACKAGE_METADATA_FIXUPS entry for publicsuffix: a check-only
license rule and a check-and-fixup license_file rule. -/
def publicsuffixFixups : List (String × FixupRule) :=
  [("license", { check := some "MIT/Apache-2.0", fixup := none }),
   ("license_file", { check := none, fixup := some "LICENSE-APACHE" })]

/-! ## License file location (WorkspaceMetadata._find_license_file) -/

/-- COMMON_LICENSE_FILE_NAME_ROOTS of the source: common license file
name stems by license type (the empty key holds the generic stems). -/
def COMMON_LICENSE_FILE_NAME_ROOTS : List (String × List String) :=
  [("", ["license", "licence"]),
   ("Apache-2.0", ["license-apache", "licence-apache"]),
   ("MIT", ["license-mit", "licence-mit"]),
   ("CC0", ["license-cc0", "licence-cc0"]),
   ("Zlib", ["license-zlib", "license-zlib"])]

/-- COMMON_LICENSE_FILE_NAME_SUFFIXES of the source. -/
def COMMON_LICENSE_FILE_NAME_SUFFIXES : List String := ["", ".md", ".txt"]

/-- Every stem of the given list and of the generic list combined with
every suffix.  The source stores these sets in a dict; a list used only
through membership is the same thing. -/
def namesForRoots (roots : List String) : List String :=
  COMMON_LICENSE_FILE_NAME_SUFFIXES.flatMap (fun suffix =>
    (roots ++ ["license", "licence"]).map (fun root => root ++ suffix))

/-- COMMON_LICENSE_FILE_NAMES[license], including the KeyError fallback
of _find_license_file to the generic entry when the chosen license has
no entry of its own. -/
def commonLicenseFileNames (license : String) : List String :=
  match assocLookup COMMON_LICENSE_FILE_NAME_ROOTS license with
  | some roots => namesForRoots roots
  | none => namesForRoots []

/-- The two RuntimeErrors _find_license_file can raise: several
ambiguous candidate files (enumerated), or none at all (pointing at the
repository). -/
inductive FindFileError where
  | ambiguous (pkgName : String) (candidates : List String)
  | notFound (pkgName : String) (repository : String)
deriving DecidableEq, Repr

/-- WorkspaceMetadata._find_license_file: an explicitly declared license
file is returned unchanged; otherwise the names of the package directory
are matched case-insensitively against the conventional candidate set,
and exactly one match is returned, anything else being a fatal error.
The directory listing is passed in as a list of file names. -/
def find_license_file (licenseFileDecl : Option String) (license : String)
    (pkgName repository : String) (dirListing : List String) :
    Except FindFileError String :=
  match licenseFileDecl with
  | some f => .ok f
  | none =>
    match dirListing.filter (fun nm => (commonLicenseFileNames license).contains (strToLower nm)) with
    | [f] => .ok f
    | [] => .error (.notFound pkgName repository)
    | fs => .error (.ambiguous pkgName fs)

/-! ## License text fetching (WorkspaceMetadata._fetch_license_text) -/

/-- The effect _fetch_license_text decides on: return embedded literal
text, fetch a remote URL, or read a local file under the package root. -/
inductive FetchAction where
  | literal (text : String)
  | remote (url : String)
  | localFile (path : String)
deriving DecidableEq, Repr

/-- Python os.path.dirname for POSIX paths: everything before the last
slash, with trailing slashes stripped unless the head is all slashes. -/
def dirname (p : String) : String :=
  let cs := p.data
  let tailLen := (cs.reverse.takeWhile (fun c => c ≠ '/')).length
  let head := cs.take (cs.length - tailLen)
  if head ≠ [] ∧ head.any (fun c => c ≠ '/') then
    ⟨(head.reverse.dropWhile (fun c => c = '/')).reverse⟩
  else ⟨head⟩

/-- Python os.path.join for two POSIX path components. -/
def joinPath (a b : String) : String :=
  if strLeads "/" b then b
  else if a = "" then b
  else if strEnds "/" a then a ++ b
  else a ++ "/" ++ b

/-- WorkspaceMetadata._fetch_license_text, modelled by the action it
takes: embedded license_text wins, then a reference starting with the
literal prefix https:// is fetched remotely, and any other reference is
read from the directory containing the package manifest. -/
def fetch_license_text (licenseText : Option String) (licenseFile manifestPath : String) :
    FetchAction :=
  match licenseText with
  | some t => .literal t
  | none =>
    if strLeads "https://" licenseFile then .remote licenseFile
    else .localFile (joinPath (dirname manifestPath) licenseFile)

/-! ## Extra dependencies not managed by cargo -/

/-- PACKAGES_WITH_EXTRA_DEPENDENCIES of the source. -/
def PACKAGES_WITH_EXTRA_DEPENDENCIES : List (String × List String) :=
  [("nss_sys", ["ext-nss", "ext-nspr"]),
   ("openssl-sys", ["ext-openssl"]),
   ("rusqlite", ["ext-sqlite"]),
   ("rc_crypto", ["ext-ring"])]

/-- WorkspaceMetadata.target_is_android. -/
def target_is_android (target : String) : Bool :=
  strEnds "-android" target || strEnds "-androideabi" target

/-- WorkspaceMetadata.target_is_ios. -/
def target_is_ios (target : String) : Bool :=
  strEnds "-ios" target

/-- WorkspaceMetadata.get_extra_dependencies_not_managed_by_cargo: a
Finset models the Python set being built.  nameOf stands for the catalog
lookup pkgInfoById[dep]["name"]. -/
def get_extra_dependencies_not_managed_by_cargo (nameOf : String → String)
    (targets deps : List String) : Finset String :=
  let fromTargets : Finset String := targets.foldl (fun acc target =>
    let acc := if target_is_android target then insert "ext-jna" (insert "ext-protobuf" acc) else acc
    if target_is_ios target then insert "ext-swift-keychain-wrapper" acc else acc) ∅
  deps.foldl (fun acc dep =>
    match assocLookup PACKAGES_WITH_EXTRA_DEPENDENCIES (nameOf dep) with
    | some extras => acc ∪ extras.toFinset
    | none => acc) fromTargets

/-! ## Grouping and presentation (group_dependencies_for_printing) -/

/-- One per-dependency license record, as produced by get_license_info:
name, workspace-scoped id, repository, chosen license, resolved license
file, fetched license text, and the license URL (read through dict.get
when grouping, hence an Option). -/
structure Record where
  name : String
  id : String
  repository : String
  license : String
  license_file : String
  license_text : String
  license_url : Option String
deriving DecidableEq, Repr

/-- Licenses whose boilerplate text is known to be shared: MPL-2.0,
Apache-2.0 and every identifier starting with EXT-. -/
def licenseHasSharedText (license : String) : Bool :=
  license == "MPL-2.0" || license == "Apache-2.0" || strLeads "EXT-" license

/-- The grouping key of group_dependencies_for_printing.  The source
computes a string: the license identifier alone for shared-boilerplate
licenses, and otherwise the license identifier joined by a colon to the
SHA-256 hex digest of the license text with all whitespace removed.
Since the digest serves purely as an equality token for the stripped
text (the colon-free 64-character hex tail makes the two key shapes and
the license component unambiguous, and hash collisions are assumed
absent), the key is modelled as a sum with the stripped text standing in
for its digest. -/
inductive GroupKey where
  | byLicense (license : String)
  | byText (license : String) (strippedText : String)
deriving DecidableEq, Repr

/-- The grouping key of one record. -/
def groupKey (info : Record) : GroupKey :=
  if licenseHasSharedText info.license then .byLicense info.license
  else .byText info.license (stripAllWs info.license_text)

/-- The license identifier a key belongs to. -/
def keyLicense : GroupKey → String
  | .byLicense license => license
  | .byText license _ => license

/-- Append a record to its key's entry of an insertion-ordered
association list, creating the entry at the end when absent; this is
exactly how a Python defaultdict(list) populated by append behaves,
dict iteration following key insertion order. -/
def addToGroups (gs : List (GroupKey × List Record)) (k : GroupKey) (info : Record) :
    List (GroupKey × List Record) :=
  match gs with
  | [] => [(k, [info])]
  | (k', rs) :: rest =>
    if k' = k then (k', rs ++ [info]) :: rest else (k', rs) :: addToGroups rest k info

/-- depsByLicenseTextHash of the source: the records grouped by key, in
key first-occurrence order, each group in input order. -/
def groupsOf (deps : List Record) : List (GroupKey × List Record) :=
  deps.foldl (fun gs info => addToGroups gs (groupKey info) info) []

/-- make_license_title of the source. -/
def make_license_title (license : String) (deps : Option (List Record)) : String :=
  if license == "EXT-OPENSSL" then "OpenSSL License"
  else if license == "EXT-SQLITE" then "Optional Notice: SQLite"
  else
    let title :=
      if license == "MPL-2.0" then "Mozilla Public License 2.0"
      else if license == "Apache-2.0" then "Apache License 2.0"
      else license ++ " License"
    match deps with
    | none => title
    | some [] => title
    | some ds =>
      let names := dedupAdj (sortLe strLe (ds.map Record.name))
      title ++ ": " ++ String.intercalate ", " names

/-- One printed group: title, sorted member records, license, grouping
key, canonical license text and the first member's license URL. -/
structure Group where
  title : String
  dependencies : List Record
  license : String
  license_text_hash : GroupKey
  license_text : String
  license_url : Option String
deriving DecidableEq, Repr

instance : Inhabited Group :=
  ⟨⟨"", [], "", .byLicense "", "", none⟩⟩

/-- The within-group order of the source: sort by the (name, id) pair. -/
def depLe (a b : Record) : Bool :=
  if a.name = b.name then strLe a.id b.id else strLe a.name b.name

/-- The grouping key of the shared Apache-2.0 group. -/
def apacheKey : GroupKey := .byLicense "Apache-2.0"

/-- Whether a record's text can serve as the canonical Apache-2.0 text:
it still contains the copyright-year placeholder and is not the
NSS-customized copy. -/
def apacheOkText (d : Record) : Bool :=
  strHasSub "[yyyy]" d.license_text && !(strHasSub "NSS" d.license_text)

/-- The message of the RuntimeError raised when no canonical Apache text
is found. -/
def apacheErrMsg : String := "Could not find appropriate apache license text"

/-- Build one group from its key and its already-sorted member list:
pick the canonical license text (scanning for a placeholder-bearing,
non-NSS copy in the shared Apache-2.0 group, the first member's text in
every other group), and assemble title, license and URL.  An empty
member list cannot occur (groups are created nonempty); it maps to the
IndexError reading deps[0] would raise. -/
def buildGroupSorted (k : GroupKey) (deps : List Record) : Except String Group :=
  match deps with
  | [] => .error "empty group"
  | d0 :: _ =>
    let license := d0.license
    let textE : Except String String :=
      if k ≠ apacheKey then .ok d0.license_text
      else
        match deps.find? apacheOkText with
        | some d => .ok d.license_text
        | none => .error apacheErrMsg
    match textE with
    | .error e => .error e
    | .ok licenseText =>
      .ok { title :=
              if license == "MPL-2.0" || license == "Apache-2.0" then
                make_license_title license none
              else make_license_title license (some deps)
            dependencies := deps
            license := license
            license_text_hash := k
            license_text := licenseText
            license_url := d0.license_url }

/-- Build one group from its key and its members in input order, sorting
the members by (name, id) first, as the source does. -/
def buildGroup (p : GroupKey × List Record) : Except String Group :=
  buildGroupSorted p.1 (sortLe depLe p.2)

/-- Map a fallible function over a list, stopping at the first error;
this is the Python loop appending to a list while any iteration may
raise. -/
def mapExcept (f : α → Except ε β) : List α → Except ε (List β)
  | [] => .ok []
  | a :: as =>
    match f a with
    | .error e => .error e
    | .ok b =>
      match mapExcept f as with
      | .error e => .error e
      | .ok bs => .ok (b :: bs)

/-- The position of a license in the preference list, unlisted licenses
coming after every listed one, exactly as the source's enumerate loop
falling through to i + 1 computes. -/
def sortKeyIdx (license : String) : Nat :=
  match LICENSES_IN_PREFERENCE_ORDER.findIdx? (fun l => l == license) with
  | some i => i
  | none => LICENSES_IN_PREFERENCE_ORDER.length

/-- The sort key of a group: preference position first, then the member
names in their sorted order. -/
def group_sort_key (g : Group) : Nat × List String :=
  (sortKeyIdx g.license, g.dependencies.map Record.name)

/-- Python comparison of (int, list-of-str) sort keys. -/
def keyLe (a b : Nat × List String) : Bool :=
  if a.1 = b.1 then strListLe a.2 b.2 else a.1 < b.1

/-- The group order of the source's groups.sort. -/
def groupLe (g h : Group) : Bool := keyLe (group_sort_key g) (group_sort_key h)

/-- group_dependencies_for_printing of the source: group the records by
key, build each group (which may raise while canonicalizing the Apache
text), then stably sort the groups by their sort key. -/
def group_dependencies_for_printing (deps : List Record) : Except String (List Group) :=
  match mapExcept buildGroup (groupsOf deps) with
  | .error e => .error e
  | .ok groups => .ok (sortLe groupLe groups)

/-- Total version of buildGroup used to state determinism hypotheses:
the group it builds, or a dummy when building fails. -/
def buildGroupTotal (p : GroupKey × List Record) : Group :=
  match buildGroup p with
  | .ok g => g
  | .error _ => default

/-- The sort keys of all groups of a record list, in grouping order. -/
def groupSortKeys (deps : List Record) : List (Nat × List String) :=
  (groupsOf deps).map (fun p => group_sort_key (buildGroupTotal p))

/-- Replace a group's member list by its sorted form; buildGroup is
buildGroupSorted after normPair. -/
def normPair (p : GroupKey × List Record) : GroupKey × List Record :=
  (p.1, sortLe depLe p.2)

/-- Total version of buildGroupSorted, for already-sorted member lists. -/
def buildGroupSortedTotal (q : GroupKey × List Record) : Group :=
  match buildGroupSorted q.1 q.2 with
  | .ok g => g
  | .error _ => default

/-- A sample MPL-2.0 record, as in the end-to-end example of the spec. -/
def sampleMpl : Record :=
  { name := "mpl-lib"
    id := "m1"
    repository := "https://example.com/mpl-lib"
    license := "MPL-2.0"
    license_file := "LICENSE"
    license_text := "mpl license text"
    license_url := some "https://example.com/mpl-lib/LICENSE" }

/-- A sample MIT record, as in the end-to-end example of the spec. -/
def sampleMit : Record :=
  { name := "mit-lib"
    id := "m2"
    repository := "https://example.com/mit-lib"
    license := "MIT"
    license_file := "LICENSE"
    license_text := "mit license text"
    license_url := some "https://example.com/mit-lib/LICENSE" }

/-- A record with an unlisted license; together with tieB it produces two
groups with identical sort keys. -/
def tieA : Record :=
  { name := "foo"
    id := "1"
    repository := "r"
    license := "AAA"
    license_file := "f"
    license_text := "text one"
    license_url := none }

/-- Like tieA, with a different unlisted license and different text. -/
def tieB : Record :=
  { name := "foo"
    id := "2"
    repository := "r"
    license := "BBB"
    license_file := "f"
    license_text := "text two"
    license_url := none }

/-- An Apache-2.0 record whose text keeps the copyright placeholder. -/
def apGeneric : Record :=
  { name := "alib"
    id := "a1"
    repository := "r"
    license := "Apache-2.0"
    license_file := "f"
    license_text := "Copyright [yyyy] owner"
    license_url := none }

/-- An Apache-2.0 record with an NSS-customized text. -/
def apNss : Record :=
  { name := "zlib-bindings"
    id := "a2"
    repository := "r"
    license := "Apache-2.0"
    license_file := "f"
    license_text := "NSS custom notice [yyyy]"
    license_url := none }

instance instDecEqExcept [DecidableEq ε] [DecidableEq α] : DecidableEq (Except ε α) :=
  fun a b =>
    match a, b with
    | .ok x, .ok y =>
      if h : x = y then .isTrue (by rw [h]) else .isFalse (fun hc => by cases hc; exact h rfl)
    | .error x, .error y =>
      if h : x = y then .isTrue (by rw [h]) else .isFalse (fun hc => by cases hc; exact h rfl)
    | .ok _, .error _ => .isFalse (fun hc => by cases hc)
    | .error _, .ok _ => .isFalse (fun hc => by cases hc)

/-! ## General lemmas about the sorting and grouping helpers -/

open scoped List

theorem insertLe_perm (le : α → α → Bool) (a : α) (l : List α) :
    insertLe le a l ~ a :: l := by
  induction l with
  | nil => exact List.Perm.refl _
  | cons b bs ih =>
    simp only [insertLe]
    split
    · exact List.Perm.refl _
    · exact (List.Perm.cons b ih).trans (List.Perm.swap a b bs)

theorem sortLe_perm (le : α → α → Bool) (l : List α) : sortLe le l ~ l := by
  induction l with
  | nil => exact List.Perm.refl _
  | cons a as ih => exact (insertLe_perm le a (sortLe le as)).trans (List.Perm.cons a ih)

theorem mem_sortLe (le : α → α → Bool) (l : List α) (x : α) :
    x ∈ sortLe le l ↔ x ∈ l :=
  (sortLe_perm le l).mem_iff

theorem sortLe_eq_nil_iff (le : α → α → Bool) (l : List α) :
    sortLe le l = [] ↔ l = [] := by
  constructor
  · intro h
    have := (sortLe_perm le l).length_eq
    rw [h] at this
    exact List.eq_nil_of_length_eq_zero this.symm
  · intro h; rw [h]; rfl

theorem mem_insertLe (le : α → α → Bool) (a : α) (l : List α) (x : α) :
    x ∈ insertLe le a l ↔ x = a ∨ x ∈ l := by
  rw [(insertLe_perm le a l).mem_iff, List.mem_cons]

theorem insertLe_sorted (le : α → α → Bool)
    (htot : ∀ a b : α, le a b = true ∨ le b a = true)
    (htrans : ∀ a b c : α, le a b = true → le b c = true → le a c = true)
    (a : α) (l : List α)
    (hs : l.Pairwise (fun x y => le x y = true)) :
    (insertLe le a l).Pairwise (fun x y => le x y = true) := by
  induction l with
  | nil => simp [insertLe]
  | cons b bs ih =>
    rcases List.pairwise_cons.1 hs with ⟨hb, hbs⟩
    simp only [insertLe]
    split
    · next hab =>
      refine List.pairwise_cons.2 ⟨fun y hy => ?_, hs⟩
      rcases List.mem_cons.1 hy with rfl | hy'
      · exact hab
      · exact htrans a b y hab (hb y hy')
    · next hab =>
      refine List.pairwise_cons.2 ⟨fun y hy => ?_, ih hbs⟩
      rcases (mem_insertLe le a bs y).1 hy with rfl | hy'
      · rcases htot y b with h | h
        · exact absurd h hab
        · exact h
      · exact hb y hy'

theorem sortLe_sorted (le : α → α → Bool)
    (htot : ∀ a b : α, le a b = true ∨ le b a = true)
    (htrans : ∀ a b c : α, le a b = true → le b c = true → le a c = true)
    (l : List α) :
    (sortLe le l).Pairwise (fun x y => le x y = true) := by
  induction l with
  | nil => exact List.Pairwise.nil
  | cons a as ih => exact insertLe_sorted le htot htrans a (sortLe le as) ih

theorem sorted_perm_eq (le : α → α → Bool)
    {l₁ l₂ : List α} (h : l₁ ~ l₂)
    (hs₁ : l₁.Pairwise (fun x y => le x y = true))
    (hs₂ : l₂.Pairwise (fun x y => le x y = true))
    (ha : ∀ x ∈ l₁, ∀ y ∈ l₁, le x y = true → le y x = true → x = y) :
    l₁ = l₂ := by
  induction l₁ generalizing l₂ with
  | nil => exact h.nil_eq
  | cons a as ih =>
    cases l₂ with
    | nil => exact absurd h.symm.nil_eq (by simp)
    | cons b bs =>
      have hmem_a : a ∈ b :: bs := h.subset (List.mem_cons_self a as)
      have hmem_b : b ∈ a :: as := h.symm.subset (List.mem_cons_self b bs)
      have hab : a = b := by
        by_cases hq : a = b
        · exact hq
        · have ha_bs : a ∈ bs := by
            rcases List.mem_cons.1 hmem_a with h' | h'
            · exact absurd h' hq
            · exact h'
          have hb_as : b ∈ as := by
            rcases List.mem_cons.1 hmem_b with h' | h'
            · exact absurd h'.symm hq
            · exact h'
          have h1 : le a b = true :=
            (List.pairwise_cons.1 hs₁).1 b hb_as
          have h2 : le b a = true :=
            (List.pairwise_cons.1 hs₂).1 a ha_bs
          exact ha a (List.mem_cons_self a as) b (List.mem_cons_of_mem a hb_as) h1 h2
      subst hab
      have h' : as ~ bs := h.cons_inv
      have htail := ih h' (List.pairwise_cons.1 hs₁).2 (List.pairwise_cons.1 hs₂).2
        (fun x hx y hy => ha x (List.mem_cons_of_mem a hx) y (List.mem_cons_of_mem a hy))
      rw [htail]

/-! ## The concrete comparison functions are total preorders -/

theorem charListLe_total : ∀ a b : List Char, charListLe a b = true ∨ charListLe b a = true
  | [], _ => Or.inl rfl
  | _ :: _, [] => Or.inr rfl
  | x :: xs, y :: ys => by
    rcases lt_trichotomy x y with h | h | h
    · left; simp [charListLe, h]
    · subst h
      rcases charListLe_total xs ys with h' | h'
      · left; simp [charListLe, lt_irrefl, h']
      · right; simp [charListLe, lt_irrefl, h']
    · right; simp [charListLe, h]

theorem charListLe_trans : ∀ a b c : List Char,
    charListLe a b = true → charListLe b c = true → charListLe a c = true
  | [], _, _ => by intro _ _; rfl
  | x :: xs, [], _ => by intro h _; simp [charListLe] at h
  | _ :: _, _ :: _, [] => by intro _ h; simp [charListLe] at h
  | x :: xs, y :: ys, z :: zs => by
    intro h1 h2
    simp only [charListLe] at h1 h2 ⊢
    by_cases hxy : x < y
    · by_cases hyz : y < z
      · simp [lt_trans hxy hyz]
      · by_cases hzy : z < y
        · simp [charListLe, hyz, hzy] at h2
        · have : y = z := le_antisymm (not_lt.1 hzy) (not_lt.1 hyz)
          subst this
          simp [hxy]
    · by_cases hyx : y < x
      · simp [hxy, hyx] at h1
      · have : x = y := le_antisymm (not_lt.1 hyx) (not_lt.1 hxy)
        subst this
        by_cases hyz : x < z
        · simp [hyz]
        · by_cases hzy : z < x
          · simp [hyz, hzy] at h2
          · have : x = z := le_antisymm (not_lt.1 hzy) (not_lt.1 hyz)
            subst this
            simp only [lt_irrefl, if_false] at h1 h2 ⊢
            exact charListLe_trans xs ys zs h1 h2

theorem charListLe_antisymm : ∀ a b : List Char,
    charListLe a b = true → charListLe b a = true → a = b
  | [], [] => by intro _ _; rfl
  | [], _ :: _ => by intro _ h; simp [charListLe] at h
  | _ :: _, [] => by intro h _; simp [charListLe] at h
  | x :: xs, y :: ys => by
    intro h1 h2
    simp only [charListLe] at h1 h2
    by_cases hxy : x < y
    · simp [hxy, asymm hxy] at h2
    · by_cases hyx : y < x
      · simp [hxy, hyx] at h1
      · have hxyeq : x = y := le_antisymm (not_lt.1 hyx) (not_lt.1 hxy)
        subst hxyeq
        simp only [lt_irrefl, if_false] at h1 h2
        rw [charListLe_antisymm xs ys h1 h2]

theorem strLe_total (a b : String) : strLe a b = true ∨ strLe b a = true :=
  charListLe_total a.data b.data

theorem strLe_trans (a b c : String) :
    strLe a b = true → strLe b c = true → strLe a c = true :=
  charListLe_trans a.data b.data c.data

theorem strLe_antisymm (a b : String) : strLe a b = true → strLe b a = true → a = b := by
  cases a with
  | mk da =>
    cases b with
    | mk db =>
      intro h1 h2
      exact congrArg String.mk (charListLe_antisymm da db h1 h2)

theorem strListLe_total : ∀ a b : List String, strListLe a b = true ∨ strListLe b a = true
  | [], _ => Or.inl rfl
  | _ :: _, [] => Or.inr rfl
  | x :: xs, y :: ys => by
    by_cases hxy : x = y
    · subst hxy
      rcases strListLe_total xs ys with h | h
      · left; simp [strListLe, h]
      · right; simp [strListLe, h]
    · have hyx : y ≠ x := fun h => hxy h.symm
      rcases strLe_total x y with h | h
      · left; simp [strListLe, hxy, h]
      · right; simp [strListLe, hyx, h]

theorem strListLe_trans : ∀ a b c : List String,
    strListLe a b = true → strListLe b c = true → strListLe a c = true
  | [], _, _ => by intro _ _; rfl
  | x :: xs, [], _ => by intro h _; simp [strListLe] at h
  | _ :: _, _ :: _, [] => by intro _ h; simp [strListLe] at h
  | x :: xs, y :: ys, z :: zs => by
    intro h1 h2
    simp only [strListLe] at h1 h2 ⊢
    by_cases hxy : x = y
    · subst hxy
      by_cases hyz : x = z
      · subst hyz
        simp only [if_pos rfl] at h1 h2 ⊢
        exact strListLe_trans xs ys zs h1 h2
      · simpa [hyz] using h2
    · by_cases hyz : y = z
      · subst hyz
        simpa [hxy] using h1
      · rw [if_neg hxy] at h1
        rw [if_neg hyz] at h2
        by_cases hxz : x = z
        · subst hxz
          exact absurd (strLe_antisymm x y h1 h2) hxy
        · rw [if_neg hxz]
          exact strLe_trans x y z h1 h2

theorem strListLe_antisymm : ∀ a b : List String,
    strListLe a b = true → strListLe b a = true → a = b
  | [], [] => by intro _ _; rfl
  | [], _ :: _ => by intro _ h; simp [strListLe] at h
  | _ :: _, [] => by intro h _; simp [strListLe] at h
  | x :: xs, y :: ys => by
    intro h1 h2
    simp only [strListLe] at h1 h2
    by_cases hxy : x = y
    · subst hxy
      simp only [if_pos rfl] at h1 h2
      rw [strListLe_antisymm xs ys h1 h2]
    · have hyx : y ≠ x := fun h => hxy h.symm
      rw [if_neg hxy] at h1
      rw [if_neg hyx] at h2
      exact absurd (strLe_antisymm x y h1 h2) hxy

theorem keyLe_total (a b : Nat × List String) : keyLe a b = true ∨ keyLe b a = true := by
  by_cases h : a.1 = b.1
  · rcases strListLe_total a.2 b.2 with h' | h'
    · left; simp [keyLe, h, h']
    · right; simp [keyLe, h.symm, h']
  · have h' : b.1 ≠ a.1 := fun hc => h hc.symm
    rcases Nat.lt_or_ge a.1 b.1 with hlt | hge
    · left; simp [keyLe, h, hlt]
    · right
      have : b.1 < a.1 := lt_of_le_of_ne hge h'
      simp [keyLe, h', this]

theorem keyLe_trans (a b c : Nat × List String) :
    keyLe a b = true → keyLe b c = true → keyLe a c = true := by
  intro h1 h2
  simp only [keyLe] at h1 h2 ⊢
  by_cases hab : a.1 = b.1
  · by_cases hbc : b.1 = c.1
    · rw [if_pos hab] at h1
      rw [if_pos hbc] at h2
      rw [if_pos (hab.trans hbc)]
      exact strListLe_trans _ _ _ h1 h2
    · rw [if_neg hbc] at h2
      have : a.1 ≠ c.1 := by rw [hab]; exact hbc
      rw [if_neg this]
      rw [hab]
      exact h2
  · rw [if_neg hab] at h1
    have h1' : a.1 < b.1 := by simpa using h1
    by_cases hbc : b.1 = c.1
    · have : a.1 ≠ c.1 := by rw [← hbc]; exact hab
      rw [if_neg this]
      simp [← hbc, h1']
    · rw [if_neg hbc] at h2
      have h2' : b.1 < c.1 := by simpa using h2
      have hac : a.1 < c.1 := lt_trans h1' h2'
      rw [if_neg (Nat.ne_of_lt hac)]
      simp [hac]

theorem keyLe_antisymm (a b : Nat × List String) :
    keyLe a b = true → keyLe b a = true → a = b := by
  intro h1 h2
  simp only [keyLe] at h1 h2
  by_cases hab : a.1 = b.1
  · rw [if_pos hab] at h1
    rw [if_pos hab.symm] at h2
    have := strListLe_antisymm _ _ h1 h2
    exact Prod.ext hab this
  · rw [if_neg hab] at h1
    rw [if_neg (fun hc => hab hc.symm)] at h2
    have h1' : a.1 < b.1 := by simpa using h1
    have h2' : b.1 < a.1 := by simpa using h2
    exact absurd (lt_trans h1' h2') (lt_irrefl a.1)

theorem depLe_total (a b : Record) : depLe a b = true ∨ depLe b a = true := by
  by_cases h : a.name = b.name
  · rcases strLe_total a.id b.id with h' | h'
    · left; simp [depLe, h, h']
    · right; simp [depLe, h.symm, h']
  · have h' : b.name ≠ a.name := fun hc => h hc.symm
    rcases strLe_total a.name b.name with hle | hle
    · left; simp [depLe, h, hle]
    · right; simp [depLe, h', hle]

theorem depLe_trans (a b c : Record) :
    depLe a b = true → depLe b c = true → depLe a c = true := by
  intro h1 h2
  simp only [depLe] at h1 h2 ⊢
  by_cases hab : a.name = b.name
  · by_cases hbc : b.name = c.name
    · rw [if_pos hab] at h1
      rw [if_pos hbc] at h2
      rw [if_pos (hab.trans hbc)]
      exact strLe_trans _ _ _ h1 h2
    · rw [if_neg hbc] at h2
      have : a.name ≠ c.name := by rw [hab]; exact hbc
      rw [if_neg this, hab]
      exact h2
  · rw [if_neg hab] at h1
    by_cases hbc : b.name = c.name
    · have : a.name ≠ c.name := by rw [← hbc]; exact hab
      rw [if_neg this, ← hbc]
      exact h1
    · rw [if_neg hbc] at h2
      by_cases hac : a.name = c.name
      · exact absurd (strLe_antisymm _ _ h1 (by rw [hac]; exact h2)) hab
      · rw [if_neg hac]
        exact strLe_trans _ _ _ h1 h2

theorem depLe_antisymm_pair (a b : Record) :
    depLe a b = true → depLe b a = true → a.name = b.name ∧ a.id = b.id := by
  intro h1 h2
  simp only [depLe] at h1 h2
  by_cases hab : a.name = b.name
  · rw [if_pos hab] at h1
    rw [if_pos hab.symm] at h2
    exact ⟨hab, strLe_antisymm _ _ h1 h2⟩
  · rw [if_neg hab] at h1
    rw [if_neg (fun hc => hab hc.symm)] at h2
    exact absurd (strLe_antisymm _ _ h1 h2) hab

theorem groupLe_total (g h : Group) : groupLe g h = true ∨ groupLe h g = true :=
  keyLe_total _ _

theorem groupLe_trans (g h k : Group) :
    groupLe g h = true → groupLe h k = true → groupLe g k = true :=
  keyLe_trans _ _ _

theorem groupLe_antisymm_key (g h : Group) :
    groupLe g h = true → groupLe h g = true → group_sort_key g = group_sort_key h :=
  keyLe_antisymm _ _

/-! ## Lemmas about the grouping association list -/

theorem assocLookup_eq_none_iff {κ ν : Type} [BEq κ] [LawfulBEq κ] :
    ∀ (gs : List (κ × ν)) (k : κ), assocLookup gs k = none ↔ k ∉ gs.map Prod.fst
  | [], k => by simp [assocLookup]
  | (k₀, v₀) :: rest, k => by
    by_cases h : k₀ = k
    · subst h
      simp [assocLookup]
    · have hb : (k₀ == k) = false := by
        simp only [beq_eq_false_iff_ne, ne_eq]
        exact h
      simp only [assocLookup, hb, Bool.false_eq_true, if_false, List.map_cons,
        List.mem_cons]
      rw [assocLookup_eq_none_iff rest k]
      constructor
      · intro h' hc
        rcases hc with hc | hc
        · exact h hc.symm
        · exact h' hc
      · intro h' hc
        exact h' (Or.inr hc)

theorem mem_of_assocLookup {κ ν : Type} [BEq κ] [LawfulBEq κ] :
    ∀ (gs : List (κ × ν)) (k : κ) (v : ν), assocLookup gs k = some v → (k, v) ∈ gs
  | [], k, v => by simp [assocLookup]
  | (k₀, v₀) :: rest, k, v => by
    by_cases h : k₀ = k
    · subst h
      simp only [assocLookup, beq_self_eq_true, if_pos rfl, if_true]
      intro hv
      cases hv
      exact List.mem_cons_self _ _
    · have hb : (k₀ == k) = false := by
        simp only [beq_eq_false_iff_ne, ne_eq]
        exact h
      simp only [assocLookup, hb, Bool.false_eq_true, if_false]
      intro hv
      exact List.mem_cons_of_mem _ (mem_of_assocLookup rest k v hv)

theorem assocLookup_eq_of_mem_of_nodup {κ ν : Type} [BEq κ] [LawfulBEq κ] :
    ∀ (gs : List (κ × ν)), ((gs.map Prod.fst).Nodup) → ∀ (k : κ) (v : ν),
      (k, v) ∈ gs → assocLookup gs k = some v
  | [], _, k, v => by simp
  | (k₀, v₀) :: rest, hnd, k, v => by
    intro hm
    rcases List.mem_cons.1 hm with heq | hmem
    · cases heq
      simp [assocLookup]
    · have hk : k ∈ rest.map Prod.fst :=
        List.mem_map.2 ⟨(k, v), hmem, rfl⟩
      have hne : k₀ ≠ k := by
        intro hc
        subst hc
        exact (List.pairwise_cons.1 hnd).1 k₀ hk rfl
      have hb : (k₀ == k) = false := by
        simp only [beq_eq_false_iff_ne, ne_eq]
        exact hne
      simp only [assocLookup, hb, Bool.false_eq_true, if_false]
      exact assocLookup_eq_of_mem_of_nodup rest (List.pairwise_cons.1 hnd).2 k v hmem

theorem assocLookup_addToGroups :
    ∀ (gs : List (GroupKey × List Record)) (k k' : GroupKey) (r : Record),
      assocLookup (addToGroups gs k r) k' =
        if k' = k then some (((assocLookup gs k).getD []) ++ [r]) else assocLookup gs k'
  | [], k, k', r => by
    by_cases h : k' = k
    · subst h
      simp [addToGroups, assocLookup]
    · have h' : k ≠ k' := fun hc => h hc.symm
      simp [addToGroups, assocLookup, h, h']
  | (k₀, rs) :: rest, k, k', r => by
    by_cases h0 : k₀ = k
    · subst h0
      by_cases h : k' = k₀
      · subst h
        simp [addToGroups, assocLookup]
      · have h' : k₀ ≠ k' := fun hc => h hc.symm
        simp [addToGroups, assocLookup, h, h']
    · by_cases h : k' = k₀
      · have hk : ¬ k' = k := by
          rw [h]
          exact h0
        rw [h] at hk ⊢
        simp [addToGroups, assocLookup, h0, hk]
      · have h' : k₀ ≠ k' := fun hc => h hc.symm
        have hb : (k₀ == k') = false := by
          simp only [beq_eq_false_iff_ne, ne_eq]
          exact h'
        have hb0 : (k₀ == k) = false := by
          simp only [beq_eq_false_iff_ne, ne_eq]
          exact h0
        simp only [addToGroups, if_neg h0, assocLookup, hb, hb0, Bool.false_eq_true, if_false]
        rw [assocLookup_addToGroups rest k k' r]

theorem assocLookup_foldGroups :
    ∀ (l : List Record) (gs : List (GroupKey × List Record)) (k : GroupKey),
      assocLookup (l.foldl (fun acc info => addToGroups acc (groupKey info) info) gs) k =
        match assocLookup gs k with
        | some v => some (v ++ l.filter (fun r => groupKey r == k))
        | none =>
          if l.filter (fun r => groupKey r == k) = [] then none
          else some (l.filter (fun r => groupKey r == k))
  | [], gs, k => by
    cases h : assocLookup gs k <;> simp [h]
  | a :: l, gs, k => by
    rw [List.foldl_cons, assocLookup_foldGroups l (addToGroups gs (groupKey a) a) k,
      assocLookup_addToGroups gs (groupKey a) k a]
    by_cases hk : k = groupKey a
    · subst hk
      rw [if_pos rfl]
      have hf : (a :: l).filter (fun r => groupKey r == groupKey a) =
          a :: l.filter (fun r => groupKey r == groupKey a) := by
        simp [List.filter_cons]
      rw [hf]
      cases h : assocLookup gs (groupKey a) with
      | some v => simp
      | none => simp
    · rw [if_neg hk]
      have hf : (a :: l).filter (fun r => groupKey r == k) =
          l.filter (fun r => groupKey r == k) := by
        have : (groupKey a == k) = false := by
          simp only [beq_eq_false_iff_ne, ne_eq]
          exact fun hc => hk hc.symm
        simp [List.filter_cons, this]
      rw [hf]

theorem assocLookup_groupsOf (l : List Record) (k : GroupKey) :
    assocLookup (groupsOf l) k =
      if l.filter (fun r => groupKey r == k) = [] then none
      else some (l.filter (fun r => groupKey r == k)) := by
  have := assocLookup_foldGroups l [] k
  simpa [groupsOf, assocLookup] using this

theorem keys_addToGroups :
    ∀ (gs : List (GroupKey × List Record)) (k : GroupKey) (r : Record),
      (addToGroups gs k r).map Prod.fst =
        if k ∈ gs.map Prod.fst then gs.map Prod.fst else gs.map Prod.fst ++ [k]
  | [], k, r => by simp [addToGroups]
  | (k₀, rs) :: rest, k, r => by
    by_cases h0 : k₀ = k
    · subst h0
      simp [addToGroups]
    · have h0' : ¬ k = k₀ := fun hc => h0 hc.symm
      simp only [addToGroups, if_neg h0, List.map_cons, List.mem_cons]
      rw [keys_addToGroups rest k r]
      by_cases hmem : k ∈ rest.map Prod.fst
      · simp [hmem, h0']
      · simp [hmem, h0']

theorem keys_nodup_foldGroups :
    ∀ (l : List Record) (gs : List (GroupKey × List Record)),
      ((gs.map Prod.fst).Nodup) →
      (((l.foldl (fun acc info => addToGroups acc (groupKey info) info) gs).map Prod.fst).Nodup)
  | [], gs, h => h
  | a :: l, gs, h => by
    rw [List.foldl_cons]
    refine keys_nodup_foldGroups l _ ?_
    rw [keys_addToGroups gs (groupKey a) a]
    by_cases hmem : groupKey a ∈ gs.map Prod.fst
    · rw [if_pos hmem]; exact h
    · rw [if_neg hmem]
      simp only [List.nodup_append, List.nodup_cons, List.not_mem_nil, not_false_iff,
        List.nodup_nil, and_true, true_and]
      constructor
      · exact h
      · simp only [List.disjoint_singleton]
        exact hmem

theorem keys_nodup_groupsOf (l : List Record) : ((groupsOf l).map Prod.fst).Nodup :=
  keys_nodup_foldGroups l [] List.Pairwise.nil

theorem entries_nonempty_foldGroups :
    ∀ (l : List Record) (gs : List (GroupKey × List Record)),
      (∀ p ∈ gs, p.2 ≠ []) →
      ∀ p ∈ l.foldl (fun acc info => addToGroups acc (groupKey info) info) gs, p.2 ≠ []
  | [], gs, h => h
  | a :: l, gs, h => by
    rw [List.foldl_cons]
    refine entries_nonempty_foldGroups l _ ?_
    intro p hp
    clear entries_nonempty_foldGroups
    induction gs with
    | nil =>
      simp only [addToGroups, List.mem_singleton] at hp
      subst hp
      simp
    | cons q rest ih =>
      obtain ⟨k₀, rs⟩ := q
      simp only [addToGroups] at hp
      by_cases h0 : k₀ = groupKey a
      · rw [if_pos h0] at hp
        rcases List.mem_cons.1 hp with rfl | hp'
        · simp
        · exact h p (List.mem_cons_of_mem _ hp')
      · rw [if_neg h0] at hp
        rcases List.mem_cons.1 hp with rfl | hp'
        · exact h (k₀, rs) (List.mem_cons_self _ _)
        · exact ih (fun q hq => h q (List.mem_cons_of_mem _ hq)) hp'

theorem entries_nonempty_groupsOf (l : List Record) :
    ∀ p ∈ groupsOf l, p.2 ≠ [] :=
  entries_nonempty_foldGroups l [] (by simp)

theorem mem_groupsOf_iff (l : List Record) (k : GroupKey) (ms : List Record) :
    (k, ms) ∈ groupsOf l ↔ ms = l.filter (fun r => groupKey r == k) ∧ ms ≠ [] := by
  constructor
  · intro hm
    have hlk := assocLookup_eq_of_mem_of_nodup (groupsOf l) (keys_nodup_groupsOf l) k ms hm
    rw [assocLookup_groupsOf] at hlk
    by_cases hf : l.filter (fun r => groupKey r == k) = []
    · rw [if_pos hf] at hlk; cases hlk
    · rw [if_neg hf] at hlk
      cases hlk
      exact ⟨rfl, hf⟩
  · rintro ⟨rfl, hne⟩
    apply mem_of_assocLookup
    rw [assocLookup_groupsOf, if_neg hne]

/-! ## Lemmas about mapExcept -/

theorem mapExcept_ok {α β ε : Type} {f : α → Except ε β} {g : α → β} :
    ∀ (l : List α), (∀ a ∈ l, f a = .ok (g a)) → mapExcept f l = .ok (l.map g)
  | [], _ => rfl
  | a :: as, h => by
    simp only [mapExcept, h a (List.mem_cons_self a as),
      mapExcept_ok as (fun x hx => h x (List.mem_cons_of_mem a hx)), List.map_cons]

theorem mapExcept_map {α β γ ε : Type} (f : α → Except ε β) (g : γ → α) :
    ∀ (l : List γ), mapExcept f (l.map g) = mapExcept (fun c => f (g c)) l
  | [] => rfl
  | a :: as => by
    simp only [List.map_cons, mapExcept, mapExcept_map f g as]

theorem mapExcept_error {α β ε : Type} {f : α → Except ε β} {e : ε} :
    ∀ (l : List α) (bad : α), bad ∈ l → f bad = .error e →
      (∀ a ∈ l, ∀ e', f a = .error e' → e' = e) → mapExcept f l = .error e
  | [], bad, hmem, _, _ => absurd hmem (List.not_mem_nil bad)
  | a :: as, bad, hmem, hbad, huniq => by
    simp only [mapExcept]
    cases hfa : f a with
    | error e' =>
      rw [huniq a (List.mem_cons_self a as) e' hfa]
    | ok b =>
      have hbad_as : bad ∈ as := by
        rcases List.mem_cons.1 hmem with rfl | h'
        · rw [hfa] at hbad; cases hbad
        · exact h'
      rw [mapExcept_error as bad hbad_as hbad
        (fun x hx => huniq x (List.mem_cons_of_mem a hx))]

theorem mapExcept_mem_ok {α β ε : Type} {f : α → Except ε β} :
    ∀ {l : List α} {bs : List β}, mapExcept f l = .ok bs → ∀ b ∈ bs, ∃ a ∈ l, f a = .ok b := by
  intro l
  induction l with
  | nil =>
    intro bs h b hb
    cases h
    exact absurd hb (List.not_mem_nil b)
  | cons a as ih =>
    intro bs h b hb
    simp only [mapExcept] at h
    cases hfa : f a with
    | error e => rw [hfa] at h; cases h
    | ok b0 =>
      rw [hfa] at h
      cases hrest : mapExcept f as with
      | error e => rw [hrest] at h; cases h
      | ok bs0 =>
        rw [hrest] at h
        cases h
        rcases List.mem_cons.1 hb with rfl | hb'
        · exact ⟨a, List.mem_cons_self a as, hfa⟩
        · rcases ih hrest b hb' with ⟨x, hx, hfx⟩
          exact ⟨x, List.mem_cons_of_mem a hx, hfx⟩

/-! ## Lemmas about group building -/

theorem buildGroup_eq_sorted (p : GroupKey × List Record) :
    buildGroup p = buildGroupSorted (normPair p).1 (normPair p).2 := rfl

theorem buildGroupTotal_eq (p : GroupKey × List Record) :
    buildGroupTotal p = buildGroupSortedTotal (normPair p) := rfl

theorem buildGroupSorted_ok (k : GroupKey) (deps : List Record) (hne : deps ≠ [])
    (hok : k ≠ apacheKey ∨ ∃ d ∈ deps, apacheOkText d = true) :
    ∃ g, buildGroupSorted k deps = .ok g := by
  cases hE : buildGroupSorted k deps with
  | ok g => exact ⟨g, rfl⟩
  | error e =>
    exfalso
    cases deps with
    | nil => exact hne rfl
    | cons d0 rest =>
      by_cases hk : k = apacheKey
      · subst hk
        cases hfind : (d0 :: rest).find? apacheOkText with
        | some d => simp [buildGroupSorted, hfind] at hE
        | none =>
          rcases hok with hk' | ⟨d, hd, hdok⟩
          · exact hk' rfl
          · exact absurd hdok (List.find?_eq_none.1 hfind d hd)
      · simp [buildGroupSorted, hk] at hE

theorem buildGroupSorted_error (k : GroupKey) (deps : List Record) (hne : deps ≠ [])
    (hk : k = apacheKey) (hfail : ∀ d ∈ deps, apacheOkText d = false) :
    buildGroupSorted k deps = .error apacheErrMsg := by
  cases deps with
  | nil => exact absurd rfl hne
  | cons d0 rest =>
    subst hk
    have hfind : (d0 :: rest).find? apacheOkText = none :=
      List.find?_eq_none.2 (fun d hd => by
        rw [hfail d hd]
        exact Bool.false_ne_true)
    simp [buildGroupSorted, hfind]

theorem buildGroupSorted_error_msg (k : GroupKey) (deps : List Record) (e : String)
    (hne : deps ≠ []) (he : buildGroupSorted k deps = .error e) : e = apacheErrMsg := by
  cases deps with
  | nil => exact absurd rfl hne
  | cons d0 rest =>
    by_cases hk : k = apacheKey
    · subst hk
      cases hfind : (d0 :: rest).find? apacheOkText with
      | some d => simp [buildGroupSorted, hfind] at he
      | none =>
        simp only [buildGroupSorted, ne_eq, not_true_eq_false, if_false, hfind,
          reduceCtorEq, ite_self] at he
        simp [buildGroupSorted, hfind] at he
        exact he.symm
    · simp [buildGroupSorted, hk] at he

theorem buildGroupSorted_ok_deps (k : GroupKey) (deps : List Record) (g : Group)
    (h : buildGroupSorted k deps = .ok g) :
    g.dependencies = deps ∧ g.license_text_hash = k ∧
      ∀ d0 rest, deps = d0 :: rest → g.license = d0.license ∧ g.license_url = d0.license_url := by
  cases deps with
  | nil => simp [buildGroupSorted] at h
  | cons d0 rest =>
    by_cases hk : k = apacheKey
    · subst hk
      cases hfind : (d0 :: rest).find? apacheOkText with
      | some d =>
        simp only [buildGroupSorted, ne_eq, not_true_eq_false, if_false, hfind] at h
        cases h
        refine ⟨rfl, rfl, ?_⟩
        intro d0' rest' heq
        cases heq
        exact ⟨rfl, rfl⟩
      | none =>
        simp [buildGroupSorted, hfind] at h
    · simp only [buildGroupSorted, ne_eq, hk, not_false_iff, if_true] at h
      cases h
      refine ⟨rfl, rfl, ?_⟩
      intro d0' rest' heq
      cases heq
      exact ⟨rfl, rfl⟩

theorem buildGroupSorted_ok_text (k : GroupKey) (deps : List Record) (g : Group)
    (h : buildGroupSorted k deps = .ok g) :
    (k ≠ apacheKey → ∀ d0 rest, deps = d0 :: rest → g.license_text = d0.license_text) ∧
      (k = apacheKey →
        ∃ d, deps.find? apacheOkText = some d ∧ g.license_text = d.license_text) := by
  cases deps with
  | nil => simp [buildGroupSorted] at h
  | cons d0 rest =>
    constructor
    · intro hk d0' rest' heq
      cases heq
      simp only [buildGroupSorted, ne_eq, hk, not_false_iff, if_true] at h
      cases h
      rfl
    · intro hk
      subst hk
      cases hfind : (d0 :: rest).find? apacheOkText with
      | some d =>
        simp only [buildGroupSorted, ne_eq, not_true_eq_false, if_false, hfind] at h
        cases h
        exact ⟨d, rfl, rfl⟩
      | none =>
        simp [buildGroupSorted, hfind] at h

/-! ## Permutation invariance machinery for the grouping engine -/

theorem sortLe_filter_eq (l₁ l₂ : List Record) (hperm : List.Perm l₁ l₂)
    (hids : ((l₁.map (fun r => (r.name, r.id))).Nodup)) (k : GroupKey) :
    sortLe depLe (l₁.filter (fun r => groupKey r == k)) =
      sortLe depLe (l₂.filter (fun r => groupKey r == k)) := by
  apply sorted_perm_eq depLe
  · exact ((sortLe_perm _ _).trans (hperm.filter _)).trans (sortLe_perm _ _).symm
  · exact sortLe_sorted depLe depLe_total depLe_trans _
  · exact sortLe_sorted depLe depLe_total depLe_trans _
  · intro x hx y hy hxy hyx
    have hx₁ : x ∈ l₁ := List.mem_of_mem_filter ((mem_sortLe _ _ _).1 hx)
    have hy₁ : y ∈ l₁ := List.mem_of_mem_filter ((mem_sortLe _ _ _).1 hy)
    rcases depLe_antisymm_pair x y hxy hyx with ⟨hn, hi⟩
    exact List.inj_on_of_nodup_map hids hx₁ hy₁ (by rw [hn, hi])

theorem keys_mem_iff (l : List Record) (k : GroupKey) :
    k ∈ (groupsOf l).map Prod.fst ↔ l.filter (fun r => groupKey r == k) ≠ [] := by
  have h1 := assocLookup_eq_none_iff (groupsOf l) k
  rw [assocLookup_groupsOf] at h1
  by_cases hf : l.filter (fun r => groupKey r == k) = []
  · rw [if_pos hf] at h1
    simp only [hf, ne_eq, not_true_eq_false, iff_false]
    exact h1.1 rfl
  · rw [if_neg hf] at h1
    simp only [hf, ne_eq, not_false_iff, iff_true]
    by_contra hk
    exact absurd (h1.2 hk) (by simp)

theorem groupsOf_norm_perm (l₁ l₂ : List Record) (hperm : List.Perm l₁ l₂)
    (hids : ((l₁.map (fun r => (r.name, r.id))).Nodup)) :
    List.Perm ((groupsOf l₁).map normPair) ((groupsOf l₂).map normPair) := by
  have hK : List.Perm ((groupsOf l₁).map Prod.fst) ((groupsOf l₂).map Prod.fst) := by
    rw [List.perm_ext_iff_of_nodup (keys_nodup_groupsOf l₁) (keys_nodup_groupsOf l₂)]
    intro k
    rw [keys_mem_iff, keys_mem_iff]
    constructor
    · intro h hc
      apply h
      have hp := hperm.filter (fun r => groupKey r == k)
      rw [hc] at hp
      exact hp.eq_nil
    · intro h hc
      apply h
      have hp := hperm.filter (fun r => groupKey r == k)
      rw [hc] at hp
      exact hp.symm.eq_nil
  have e₁ : (groupsOf l₁).map normPair =
      ((groupsOf l₁).map Prod.fst).map
        (fun k => (k, sortLe depLe (l₁.filter (fun r => groupKey r == k)))) := by
    rw [List.map_map]
    apply List.map_congr_left
    intro p hp
    obtain ⟨k, ms⟩ := p
    rcases (mem_groupsOf_iff l₁ k ms).1 hp with ⟨hms, _⟩
    simp only [Function.comp_apply, normPair]
    rw [hms]
  have e₂ : (groupsOf l₂).map normPair =
      ((groupsOf l₂).map Prod.fst).map
        (fun k => (k, sortLe depLe (l₂.filter (fun r => groupKey r == k)))) := by
    rw [List.map_map]
    apply List.map_congr_left
    intro p hp
    obtain ⟨k, ms⟩ := p
    rcases (mem_groupsOf_iff l₂ k ms).1 hp with ⟨hms, _⟩
    simp only [Function.comp_apply, normPair]
    rw [hms]
  have e₃ : ((groupsOf l₂).map Prod.fst).map
        (fun k => (k, sortLe depLe (l₂.filter (fun r => groupKey r == k)))) =
      ((groupsOf l₂).map Prod.fst).map
        (fun k => (k, sortLe depLe (l₁.filter (fun r => groupKey r == k)))) := by
    apply List.map_congr_left
    intro k _
    rw [sortLe_filter_eq l₁ l₂ hperm hids k]
  rw [e₁, e₂, e₃]
  exact hK.map _

theorem normPair_mem_ne_nil (l : List Record) (q : GroupKey × List Record)
    (hq : q ∈ (groupsOf l).map normPair) : q.2 ≠ [] := by
  rcases List.mem_map.1 hq with ⟨p, hp, rfl⟩
  have hne := entries_nonempty_groupsOf l p hp
  simp only [normPair]
  rw [Ne, sortLe_eq_nil_iff]
  exact hne

theorem mapExcept_buildGroup_eq (l : List Record) :
    mapExcept buildGroup (groupsOf l) =
      mapExcept (fun q => buildGroupSorted q.1 q.2) ((groupsOf l).map normPair) := by
  rw [mapExcept_map]
  rfl

theorem groupPrinting_perm_core (l₁ l₂ : List Record) (hperm : List.Perm l₁ l₂)
    (hids : ((l₁.map (fun r => (r.name, r.id))).Nodup))
    (hkeys : ((groupSortKeys l₁).Nodup)) :
    group_dependencies_for_printing l₁ = group_dependencies_for_printing l₂ := by
  have hN : List.Perm ((groupsOf l₁).map normPair) ((groupsOf l₂).map normPair) :=
    groupsOf_norm_perm l₁ l₂ hperm hids
  by_cases hall : ∀ q ∈ (groupsOf l₁).map normPair, ∃ g, buildGroupSorted q.1 q.2 = .ok g
  · have hall₂ : ∀ q ∈ (groupsOf l₂).map normPair, ∃ g, buildGroupSorted q.1 q.2 = .ok g :=
      fun q hq => hall q (hN.mem_iff.2 hq)
    have hok₁ : mapExcept (fun q => buildGroupSorted q.1 q.2) ((groupsOf l₁).map normPair) =
        .ok (((groupsOf l₁).map normPair).map buildGroupSortedTotal) := by
      apply mapExcept_ok
      intro q hq
      rcases hall q hq with ⟨g, hg⟩
      simp [buildGroupSortedTotal, hg]
    have hok₂ : mapExcept (fun q => buildGroupSorted q.1 q.2) ((groupsOf l₂).map normPair) =
        .ok (((groupsOf l₂).map normPair).map buildGroupSortedTotal) := by
      apply mapExcept_ok
      intro q hq
      rcases hall₂ q hq with ⟨g, hg⟩
      simp [buildGroupSortedTotal, hg]
    have hgs : sortLe groupLe (((groupsOf l₁).map normPair).map buildGroupSortedTotal) =
        sortLe groupLe (((groupsOf l₂).map normPair).map buildGroupSortedTotal) := by
      apply sorted_perm_eq groupLe
      · exact (sortLe_perm _ _).trans ((hN.map _).trans (sortLe_perm _ _).symm)
      · exact sortLe_sorted groupLe groupLe_total groupLe_trans _
      · exact sortLe_sorted groupLe groupLe_total groupLe_trans _
      · intro x hx y hy hxy hyx
        have hkey := groupLe_antisymm_key x y hxy hyx
        have hx' : x ∈ ((groupsOf l₁).map normPair).map buildGroupSortedTotal :=
          (mem_sortLe _ _ _).1 hx
        have hy' : y ∈ ((groupsOf l₁).map normPair).map buildGroupSortedTotal :=
          (mem_sortLe _ _ _).1 hy
        have hnodupmap :
            ((((groupsOf l₁).map normPair).map buildGroupSortedTotal).map group_sort_key).Nodup := by
          rw [List.map_map, List.map_map]
          exact hkeys
        exact List.inj_on_of_nodup_map hnodupmap hx' hy' hkey
    simp only [group_dependencies_for_printing, mapExcept_buildGroup_eq, hok₁, hok₂, hgs]
  · push_neg at hall
    obtain ⟨q₀, hq₀, hq₀fail⟩ := hall
    have hq₀ne : q₀.2 ≠ [] := normPair_mem_ne_nil l₁ q₀ hq₀
    have herr : buildGroupSorted q₀.1 q₀.2 = .error apacheErrMsg := by
      cases hE : buildGroupSorted q₀.1 q₀.2 with
      | ok g => exact absurd hE (hq₀fail g)
      | error e => rw [buildGroupSorted_error_msg q₀.1 q₀.2 e hq₀ne hE]
    have h₁ : mapExcept (fun q => buildGroupSorted q.1 q.2) ((groupsOf l₁).map normPair) =
        .error apacheErrMsg := by
      apply mapExcept_error _ q₀ hq₀ herr
      intro q hq e' he'
      exact buildGroupSorted_error_msg q.1 q.2 e' (normPair_mem_ne_nil l₁ q hq) he'
    have h₂ : mapExcept (fun q => buildGroupSorted q.1 q.2) ((groupsOf l₂).map normPair) =
        .error apacheErrMsg := by
      apply mapExcept_error _ q₀ (hN.mem_iff.1 hq₀) herr
      intro q hq e' he'
      exact buildGroupSorted_error_msg q.1 q.2 e' (normPair_mem_ne_nil l₂ q hq) he'
    simp only [group_dependencies_for_printing, mapExcept_buildGroup_eq, h₁, h₂]

theorem groupPrinting_ok_sorted (l : List Record) (gs : List Group)
    (h : group_dependencies_for_printing l = .ok gs) :
    gs.Pairwise (fun g h' => groupLe g h' = true) ∧
      ∀ g ∈ gs, g.dependencies.Pairwise (fun a b => depLe a b = true) := by
  simp only [group_dependencies_for_printing] at h
  cases hme : mapExcept buildGroup (groupsOf l) with
  | error e => rw [hme] at h; cases h
  | ok groups =>
    rw [hme] at h
    cases h
    constructor
    · exact sortLe_sorted groupLe groupLe_total groupLe_trans groups
    · intro g hg
      have hg' : g ∈ groups := (mem_sortLe _ _ _).1 hg
      rcases mapExcept_mem_ok hme g hg' with ⟨p, hp, hbuild⟩
      have hdeps := buildGroupSorted_ok_deps p.1 (sortLe depLe p.2) g hbuild
      rw [hdeps.1]
      exact sortLe_sorted depLe depLe_total depLe_trans _

/-! ## Fixup application lemmas -/

theorem applyFixups_cons_error (pkg : String) (info : Info) (fieldName : String)
    (rule : FixupRule) (rest : List (String × FixupRule)) (e : FixupError)
    (h : applyFixup pkg info fieldName rule = .error e) :
    applyFixups pkg ((fieldName, rule) :: rest) info = .error e := by
  simp only [applyFixups, h]

theorem buildCatalog_abort (fixupsOf : String → List (String × FixupRule)) :
    ∀ (pkgs : List (String × Info)) (p : String × Info), p ∈ pkgs →
      (∃ e, applyFixups p.1 (fixupsOf p.1) p.2 = .error e) →
      ∃ e', buildCatalog fixupsOf pkgs = .error e'
  | [], p, hp, _ => absurd hp (List.not_mem_nil p)
  | q :: rest, p, hp, hfail => by
    obtain ⟨qn, qi⟩ := q
    simp only [buildCatalog]
    cases hq : applyFixups qn (fixupsOf qn) qi with
    | error e => exact ⟨e, rfl⟩
    | ok info' =>
      have hp' : p ∈ rest := by
        rcases List.mem_cons.1 hp with rfl | h'
        · rcases hfail with ⟨e, he⟩
          rw [hq] at he
          cases he
        · exact h'
      rcases buildCatalog_abort fixupsOf rest p hp' hfail with ⟨e', he'⟩
      rw [he']
      exact ⟨e', rfl⟩

/-! ## Claim theorems -/

/-- C1 (amended): for every dependency id and declared license expression
that is not one of the two literal compound exceptions,
pick_most_acceptable_license splits the expression on a slash or on the
literal token OR (case-sensitive, requiring at least one whitespace
character on each side of OR, with any further surrounding whitespace
absorbed) into a set of candidate identifiers, and returns the first
entry of LICENSES_IN_PREFERENCE_ORDER that occurs in that candidate set;
if no candidate occurs in the preference list it raises an error naming
the dependency id and the raw expression instead of returning. -/
theorem C1_pick_license_first_preferred (id licenseId : String)
    (h1 : licenseId ≠ "(Apache-2.0 OR MIT) AND BSD-3-Clause")
    (h2 : licenseId ≠ "(MIT OR Apache-2.0) AND Unicode-3.0") :
    (∀ l, pick_most_acceptable_license id licenseId = .ok l ↔
       ∃ before after, LICENSES_IN_PREFERENCE_ORDER = before ++ l :: after ∧
         (splitLicenses licenseId).contains l = true ∧
         ∀ x ∈ before, (splitLicenses licenseId).contains x = false)
  ∧ (pick_most_acceptable_license id licenseId = .error ⟨id, licenseId⟩ ↔
       ∀ l ∈ LICENSES_IN_PREFERENCE_ORDER, (splitLicenses licenseId).contains l = false) := by
  unfold pick_most_acceptable_license
  rw [if_neg h1, if_neg h2]
  constructor
  · intro l
    constructor
    · intro h
      cases hfind : LICENSES_IN_PREFERENCE_ORDER.find?
          (fun license => (splitLicenses licenseId).contains license) with
      | none => rw [hfind] at h; cases h
      | some l' =>
        rw [hfind] at h
        cases h
        rcases List.find?_eq_some.1 hfind with ⟨hp, before, after, heq, hbefore⟩
        refine ⟨before, after, heq, hp, fun x hx => ?_⟩
        have := hbefore x hx
        simpa using this
    · rintro ⟨before, after, heq, hl, hbefore⟩
      have hfind : LICENSES_IN_PREFERENCE_ORDER.find?
          (fun license => (splitLicenses licenseId).contains license) = some l := by
        rw [List.find?_eq_some]
        refine ⟨hl, before, after, heq, fun x hx => ?_⟩
        rw [hbefore x hx]
        rfl
      rw [hfind]
  · constructor
    · intro h
      cases hfind : LICENSES_IN_PREFERENCE_ORDER.find?
          (fun license => (splitLicenses licenseId).contains license) with
      | some l' => rw [hfind] at h; cases h
      | none =>
        intro l hl
        have := List.find?_eq_none.1 hfind l hl
        simpa using this
    · intro h
      have hfind : LICENSES_IN_PREFERENCE_ORDER.find?
          (fun license => (splitLicenses licenseId).contains license) = none :=
        List.find?_eq_none.2 (fun x hx => by
          rw [h x hx]
          exact Bool.false_ne_true)
      rw [hfind]

/-- C1 witness: on "MIT OR Apache-2.0" the chooser returns Apache-2.0
(the first preference-list entry among the candidates), likewise for the
slash form, and "GPL-3.0" alone fails naming the dependency and the raw
expression. -/
theorem C1_pick_license_first_preferred_witness :
    pick_most_acceptable_license "dep" "MIT OR Apache-2.0" = .ok "Apache-2.0" ∧
    pick_most_acceptable_license "dep" "MIT/Apache-2.0" = .ok "Apache-2.0" ∧
    pick_most_acceptable_license "dep" "GPL-3.0" = .error ⟨"dep", "GPL-3.0"⟩ := by
  refine ⟨?_, ?_, ?_⟩
  · exact ((C1_pick_license_first_preferred "dep" "MIT OR Apache-2.0"
      (by decide) (by decide)).1 "Apache-2.0").mpr
      ⟨["MPL-2.0"], ["MIT", "CC0-1.0", "ISC", "BSD-2-Clause", "BSD-3-Clause", "Zlib",
        "Unicode-3.0", "EXT-OPENSSL", "EXT-SQLITE"], by decide, by decide, by decide⟩
  · exact ((C1_pick_license_first_preferred "dep" "MIT/Apache-2.0"
      (by decide) (by decide)).1 "Apache-2.0").mpr
      ⟨["MPL-2.0"], ["MIT", "CC0-1.0", "ISC", "BSD-2-Clause", "BSD-3-Clause", "Zlib",
        "Unicode-3.0", "EXT-OPENSSL", "EXT-SQLITE"], by decide, by decide, by decide⟩
  · exact ((C1_pick_license_first_preferred "dep" "GPL-3.0"
      (by decide) (by decide)).2).mpr (by decide)

/-- C1 counterexample: the claim reads the whitespace around the OR
token as optional, but the source regex demands one whitespace character
on each side.  On the expression "MITORApache-2.0" the claim's split
yields the candidates MIT and Apache-2.0 and so predicts the answer
Apache-2.0, while the source does not split at all and raises the
unresolvable-license error. -/
theorem C1_pick_license_counterexample :
    pick_most_acceptable_license "dep" "MITORApache-2.0" =
      .error ⟨"dep", "MITORApache-2.0"⟩ ∧
    pickClaimed "dep" "MITORApache-2.0" = .ok "Apache-2.0" ∧
    splitLicensesClaim "MITORApache-2.0" = ["MIT", "Apache-2.0"] ∧
    splitLicenses "MITORApache-2.0" = ["MITORApache-2.0"] := by
  refine ⟨?_, ?_, ?_, ?_⟩ <;> decide

/-- C2: during catalog construction, a fixup rule with check X and
fixup Y overwrites the field with Y when the current value (a missing
field reading as none) equals X, and otherwise aborts with the assertion
data identifying the package name, the field, the expected value and the
actual value; a failing pair aborts the surrounding fixup loop with that
very error, and a package whose fixups fail aborts the whole catalog
construction, so no catalog is produced. -/
theorem C2_fixup_check_semantics (pkg : String) (info : Info) (fieldName : String)
    (X : Option String) (Y : String) :
    (infoGet info fieldName = X →
       applyFixup pkg info fieldName ⟨X, some Y⟩ = .ok (infoSet info fieldName Y))
  ∧ (infoGet info fieldName ≠ X →
       applyFixup pkg info fieldName ⟨X, some Y⟩ =
         .error ⟨pkg, fieldName, X, infoGet info fieldName⟩)
  ∧ (∀ (rule : FixupRule) (rest : List (String × FixupRule)) (e : FixupError),
       applyFixup pkg info fieldName rule = .error e →
       applyFixups pkg ((fieldName, rule) :: rest) info = .error e)
  ∧ (∀ (fixupsOf : String → List (String × FixupRule)) (pkgs : List (String × Info))
       (p : String × Info), p ∈ pkgs →
       (∃ e, applyFixups p.1 (fixupsOf p.1) p.2 = .error e) →
       ∃ e', buildCatalog fixupsOf pkgs = .error e') := by
  refine ⟨?_, ?_, ?_, ?_⟩
  · intro h
    simp [applyFixup, h]
  · intro h
    simp only [applyFixup, if_neg h]
  · intro rule rest e h
    exact applyFixups_cons_error pkg info fieldName rule rest e h
  · intro fixupsOf pkgs p hp hfail
    exact buildCatalog_abort fixupsOf pkgs p hp hfail

/-- C2 witness: a rule with a matching check overwrites the field, and a
rule with a failing check produces the identifying error. -/
theorem C2_fixup_check_semantics_witness :
    applyFixup "miniz_oxide" [("license", "MIT OR Zlib OR Apache-2.0")] "license"
      ⟨some "MIT OR Zlib OR Apache-2.0", some "MIT"⟩ = .ok [("license", "MIT")] ∧
    applyFixup "miniz_oxide" [("license", "GPL-3.0")] "license"
      ⟨some "MIT OR Zlib OR Apache-2.0", some "MIT"⟩ =
      .error ⟨"miniz_oxide", "license", some "MIT OR Zlib OR Apache-2.0", some "GPL-3.0"⟩ :=
  ⟨(C2_fixup_check_semantics "miniz_oxide" [("license", "MIT OR Zlib OR Apache-2.0")]
      "license" (some "MIT OR Zlib OR Apache-2.0") "MIT").1 (by decide),
   (C2_fixup_check_semantics "miniz_oxide" [("license", "GPL-3.0")]
      "license" (some "MIT OR Zlib OR Apache-2.0") "MIT").2.1 (by decide)⟩

/-- C9: a fixup rule carrying a check but no fixup value is a pure
validation: a matching check leaves the record completely unchanged,
only rules carrying a fixup ever modify a field, and a failing check
still aborts with the identifying error. -/
theorem C9_check_only_rule_is_frame (pkg fieldName : String) (c : Option String) (info : Info) :
    (infoGet info fieldName = c →
       applyFixup pkg info fieldName ⟨c, none⟩ = .ok info)
  ∧ (infoGet info fieldName ≠ c →
       applyFixup pkg info fieldName ⟨c, none⟩ =
         .error ⟨pkg, fieldName, c, infoGet info fieldName⟩)
  ∧ (∀ (rule : FixupRule) (info' : Info), rule.fixup = none →
       applyFixup pkg info fieldName rule = .ok info' → info' = info) := by
  refine ⟨?_, ?_, ?_⟩
  · intro h
    simp [applyFixup, h]
  · intro h
    simp only [applyFixup, if_neg h]
  · intro rule info' hfix h
    simp only [applyFixup] at h
    by_cases hc : infoGet info fieldName = rule.check
    · rw [if_pos hc, hfix] at h
      cases h
      rfl
    · rw [if_neg hc] at h
      cases h

/-- C9 witness: the publicsuffix license rule, whose check matches,
returns the record unchanged; the same rule on a different license value
aborts. -/
theorem C9_check_only_rule_is_frame_witness :
    applyFixup "publicsuffix" [("license", "MIT/Apache-2.0")] "license"
      { check := some "MIT/Apache-2.0", fixup := none } =
      .ok [("license", "MIT/Apache-2.0")] ∧
    applyFixup "publicsuffix" [("license", "MIT")] "license"
      { check := some "MIT/Apache-2.0", fixup := none } =
      .error ⟨"publicsuffix", "license", some "MIT/Apache-2.0", some "MIT"⟩ ∧
    publicsuffixFixups.head? =
      some ("license", { check := some "MIT/Apache-2.0", fixup := none }) :=
  ⟨(C9_check_only_rule_is_frame "publicsuffix" "license" (some "MIT/Apache-2.0")
      [("license", "MIT/Apache-2.0")]).1 (by decide),
   (C9_check_only_rule_is_frame "publicsuffix" "license" (some "MIT/Apache-2.0")
      [("license", "MIT")]).2.1 (by decide),
   by decide⟩

/-- C3: two license records land in the same group of
group_dependencies_for_printing exactly when they have the same grouping
key; the key of a record whose license is MPL-2.0, Apache-2.0 or any
identifier starting with EXT- is the license alone, and the key of every
other record combines the license with the whitespace-stripped license
text (standing in for its content hash), so such records merge exactly
when license and stripped text coincide. -/
theorem C3_grouping_key (l : List Record) (r₁ r₂ : Record)
    (h₁ : r₁ ∈ l) (h₂ : r₂ ∈ l) :
    ((∃ k ms, (k, ms) ∈ groupsOf l ∧ r₁ ∈ ms ∧ r₂ ∈ ms) ↔ groupKey r₁ = groupKey r₂)
  ∧ (groupKey r₁ = groupKey r₂ ↔
      (r₁.license = r₂.license ∧
        (licenseHasSharedText r₁.license = true ∨
          stripAllWs r₁.license_text = stripAllWs r₂.license_text)))
  ∧ (licenseHasSharedText r₁.license = true → groupKey r₁ = .byLicense r₁.license)
  ∧ (licenseHasSharedText r₁.license = false →
       groupKey r₁ = .byText r₁.license (stripAllWs r₁.license_text)) := by
  refine ⟨?_, ?_, ?_, ?_⟩
  · constructor
    · rintro ⟨k, ms, hm, hr₁, hr₂⟩
      rcases (mem_groupsOf_iff l k ms).1 hm with ⟨rfl, -⟩
      have e₁ : groupKey r₁ = k := by
        have := (List.mem_filter.1 hr₁).2
        simpa using this
      have e₂ : groupKey r₂ = k := by
        have := (List.mem_filter.1 hr₂).2
        simpa using this
      rw [e₁, e₂]
    · intro hk
      refine ⟨groupKey r₁, l.filter (fun r => groupKey r == groupKey r₁), ?_, ?_, ?_⟩
      · rw [mem_groupsOf_iff]
        refine ⟨rfl, ?_⟩
        apply List.ne_nil_of_mem (a := r₁)
        rw [List.mem_filter]
        exact ⟨h₁, by simp⟩
      · rw [List.mem_filter]
        exact ⟨h₁, by simp⟩
      · rw [List.mem_filter]
        refine ⟨h₂, ?_⟩
        rw [← hk]
        simp
  · unfold groupKey
    by_cases hs₁ : licenseHasSharedText r₁.license
    · rw [if_pos hs₁]
      by_cases hs₂ : licenseHasSharedText r₂.license
      · rw [if_pos hs₂]
        constructor
        · intro h
          injection h with h'
          exact ⟨h', Or.inl hs₁⟩
        · rintro ⟨h, -⟩
          rw [h]
      · rw [if_neg hs₂]
        constructor
        · intro h
          cases h
        · rintro ⟨h, -⟩
          rw [h] at hs₁
          exact absurd hs₁ hs₂
    · rw [if_neg hs₁]
      by_cases hs₂ : licenseHasSharedText r₂.license
      · rw [if_pos hs₂]
        constructor
        · intro h
          cases h
        · rintro ⟨h, hor⟩
          rcases hor with hsh | -
          · exact absurd hsh hs₁
          · rw [h] at hs₁
            exact absurd hs₂ hs₁
      · rw [if_neg hs₂]
        constructor
        · intro h
          injection h with hl ht
          exact ⟨hl, Or.inr ht⟩
        · rintro ⟨hl, hor⟩
          rcases hor with hsh | htext
          · exact absurd hsh hs₁
          · rw [hl, htext]
  · intro h
    simp [groupKey, h]
  · intro h
    simp [groupKey, h]

/-- C3 witness: two MPL-2.0 records with different texts share a group;
two records under unlisted licenses with different stripped texts do
not; and two records with the same non-boilerplate license and texts
equal after whitespace stripping do. -/
theorem C3_grouping_key_witness :
    (∃ k ms, (k, ms) ∈ groupsOf [sampleMpl, { sampleMpl with id := "m9", license_text := "other mpl text" }] ∧
       sampleMpl ∈ ms ∧ ({ sampleMpl with id := "m9", license_text := "other mpl text" } : Record) ∈ ms) ∧
    ¬ (∃ k ms, (k, ms) ∈ groupsOf [tieA, tieB] ∧ tieA ∈ ms ∧ tieB ∈ ms) ∧
    (∃ k ms, (k, ms) ∈ groupsOf [sampleMit, { sampleMit with id := "m7", license_text := "mit  license\ttext" }] ∧
       sampleMit ∈ ms ∧ ({ sampleMit with id := "m7", license_text := "mit  license\ttext" } : Record) ∈ ms) := by
  refine ⟨?_, ?_, ?_⟩
  · exact (C3_grouping_key _ sampleMpl _ (by decide) (by decide)).1.mpr (by decide)
  · intro hex
    have := (C3_grouping_key [tieA, tieB] tieA tieB (by decide) (by decide)).1.mp hex
    exact absurd this (by decide)
  · exact (C3_grouping_key _ sampleMit _ (by decide) (by decide)).1.mpr (by decide)

theorem mem_namesForRoots (roots : List String) (x : String) :
    (namesForRoots roots).contains x = true ↔
      ∃ root suffix, suffix ∈ COMMON_LICENSE_FILE_NAME_SUFFIXES ∧
        (root ∈ roots ∨ root ∈ ["license", "licence"]) ∧ x = root ++ suffix := by
  have h1 : (namesForRoots roots).contains x = true ↔ x ∈ namesForRoots roots :=
    List.elem_iff
  rw [h1]
  unfold namesForRoots
  rw [List.mem_flatMap]
  constructor
  · rintro ⟨suffix, hsuf, hx⟩
    rcases List.mem_map.1 hx with ⟨root, hroot, rfl⟩
    exact ⟨root, suffix, hsuf, List.mem_append.1 hroot, rfl⟩
  · rintro ⟨root, suffix, hsuf, hroot, rfl⟩
    exact ⟨suffix, hsuf, List.mem_map.2 ⟨root, List.mem_append.2 hroot, rfl⟩⟩

/-- C5: an explicitly declared license-file reference is returned
unchanged; otherwise, a filename of the package directory matches when
its lowercased form lies in the candidate set (every specific or generic
stem combined with every suffix), and exactly one match is returned
while zero matches give the not-found error and two or more give the
ambiguous error enumerating the candidates found. -/
theorem C5_find_license_file (licenseFileDecl : Option String) (license : String)
    (pkgName repository : String) (dirListing : List String) :
    (∀ f, licenseFileDecl = some f →
       find_license_file licenseFileDecl license pkgName repository dirListing = .ok f)
  ∧ (licenseFileDecl = none →
      (∀ f, find_license_file licenseFileDecl license pkgName repository dirListing = .ok f ↔
         dirListing.filter
           (fun nm => (commonLicenseFileNames license).contains (strToLower nm)) = [f])
      ∧ (dirListing.filter
           (fun nm => (commonLicenseFileNames license).contains (strToLower nm)) = [] →
           find_license_file licenseFileDecl license pkgName repository dirListing =
             .error (.notFound pkgName repository))
      ∧ (∀ f₁ f₂ fs, dirListing.filter
           (fun nm => (commonLicenseFileNames license).contains (strToLower nm)) =
             f₁ :: f₂ :: fs →
           find_license_file licenseFileDecl license pkgName repository dirListing =
             .error (.ambiguous pkgName (f₁ :: f₂ :: fs))))
  ∧ (∀ x, (commonLicenseFileNames license).contains x = true ↔
       ∃ root suffix, suffix ∈ COMMON_LICENSE_FILE_NAME_SUFFIXES ∧
         (root ∈ (assocLookup COMMON_LICENSE_FILE_NAME_ROOTS license).getD [] ∨
           root ∈ ["license", "licence"]) ∧ x = root ++ suffix) := by
  refine ⟨?_, ?_, ?_⟩
  · intro f hf
    rw [hf]
    rfl
  · intro hdecl
    subst hdecl
    refine ⟨?_, ?_, ?_⟩
    · intro f
      cases hf : dirListing.filter
          (fun nm => (commonLicenseFileNames license).contains (strToLower nm)) with
      | nil =>
        simp only [find_license_file, hf]
        constructor
        · intro h; cases h
        · intro h; cases h
      | cons f₁ rest =>
        cases rest with
        | nil =>
          simp only [find_license_file, hf]
          constructor
          · intro h
            cases h
            rfl
          · intro h
            cases h
            rfl
        | cons f₂ fs =>
          simp only [find_license_file, hf]
          constructor
          · intro h; cases h
          · intro h; cases h
    · intro hf
      simp only [find_license_file, hf]
    · intro f₁ f₂ fs hf
      simp only [find_license_file, hf]
  · intro x
    unfold commonLicenseFileNames
    cases hroots : assocLookup COMMON_LICENSE_FILE_NAME_ROOTS license with
    | some roots =>
      rw [Option.getD_some]
      exact mem_namesForRoots roots x
    | none =>
      rw [Option.getD_none]
      exact mem_namesForRoots [] x

/-- C5 witness: a directory holding only LICENSE-APACHE.md with chosen
license Apache-2.0 yields that very filename; a directory holding both
LICENSE-APACHE and LICENCE-APACHE is ambiguous; an empty directory is
not-found; and a declared reference passes through. -/
theorem C5_find_license_file_witness :
    find_license_file none "Apache-2.0" "pkg" "repo" ["LICENSE-APACHE.md", "src"] =
      .ok "LICENSE-APACHE.md" ∧
    find_license_file none "Apache-2.0" "pkg" "repo" ["LICENSE-APACHE", "LICENCE-APACHE"] =
      .error (.ambiguous "pkg" ["LICENSE-APACHE", "LICENCE-APACHE"]) ∧
    find_license_file none "MPL-2.0" "pkg" "repo" ["src"] =
      .error (.notFound "pkg" "repo") ∧
    find_license_file (some "COPYING") "MIT" "pkg" "repo" [] = .ok "COPYING" := by
  refine ⟨?_, ?_, ?_, ?_⟩
  · exact (((C5_find_license_file none "Apache-2.0" "pkg" "repo"
      ["LICENSE-APACHE.md", "src"]).2.1 rfl).1 "LICENSE-APACHE.md").mpr (by decide)
  · exact ((C5_find_license_file none "Apache-2.0" "pkg" "repo"
      ["LICENSE-APACHE", "LICENCE-APACHE"]).2.1 rfl).2.2 "LICENSE-APACHE" "LICENCE-APACHE" []
      (by decide)
  · exact ((C5_find_license_file none "MPL-2.0" "pkg" "repo" ["src"]).2.1 rfl).2.1 (by decide)
  · exact (C5_find_license_file (some "COPYING") "MIT" "pkg" "repo" []).1 "COPYING" rfl

theorem mem_targetsFold (targets : List String) (init : Finset String) (x : String) :
    (x ∈ targets.foldl (fun acc target =>
        let acc := if target_is_android target then insert "ext-jna" (insert "ext-protobuf" acc) else acc
        if target_is_ios target then insert "ext-swift-keychain-wrapper" acc else acc) init) ↔
      (x ∈ init ∨
        ((x = "ext-jna" ∨ x = "ext-protobuf") ∧ ∃ t ∈ targets, target_is_android t = true) ∨
        (x = "ext-swift-keychain-wrapper" ∧ ∃ t ∈ targets, target_is_ios t = true)) := by
  induction targets generalizing init with
  | nil => simp
  | cons t ts ih =>
    rw [List.foldl_cons, ih]
    have hstep : (x ∈ (let acc := if target_is_android t then insert "ext-jna" (insert "ext-protobuf" init) else init
        if target_is_ios t then insert "ext-swift-keychain-wrapper" acc else acc)) ↔
        (x ∈ init ∨
          ((x = "ext-jna" ∨ x = "ext-protobuf") ∧ target_is_android t = true) ∨
          (x = "ext-swift-keychain-wrapper" ∧ target_is_ios t = true)) := by
      show (x ∈ (if target_is_ios t then
          insert "ext-swift-keychain-wrapper"
            (if target_is_android t then insert "ext-jna" (insert "ext-protobuf" init) else init)
          else (if target_is_android t then insert "ext-jna" (insert "ext-protobuf" init) else init))) ↔ _
      by_cases ha : target_is_android t = true
      · by_cases hi : target_is_ios t = true
        · rw [if_pos hi, if_pos ha]
          simp only [Finset.mem_insert]
          constructor
          · intro h
            rcases h with h | h | h | h
            · exact Or.inr (Or.inr ⟨h, hi⟩)
            · exact Or.inr (Or.inl ⟨Or.inl h, ha⟩)
            · exact Or.inr (Or.inl ⟨Or.inr h, ha⟩)
            · exact Or.inl h
          · intro h
            rcases h with h | ⟨hj | hj, -⟩ | ⟨hk, -⟩
            · exact Or.inr (Or.inr (Or.inr h))
            · exact Or.inr (Or.inl hj)
            · exact Or.inr (Or.inr (Or.inl hj))
            · exact Or.inl hk
        · rw [if_neg hi, if_pos ha]
          simp only [Finset.mem_insert]
          constructor
          · intro h
            rcases h with h | h | h
            · exact Or.inr (Or.inl ⟨Or.inl h, ha⟩)
            · exact Or.inr (Or.inl ⟨Or.inr h, ha⟩)
            · exact Or.inl h
          · intro h
            rcases h with h | ⟨hj | hj, -⟩ | ⟨-, hc⟩
            · exact Or.inr (Or.inr h)
            · exact Or.inl hj
            · exact Or.inr (Or.inl hj)
            · exact absurd hc hi
      · by_cases hi : target_is_ios t = true
        · rw [if_pos hi, if_neg ha]
          simp only [Finset.mem_insert]
          constructor
          · intro h
            rcases h with h | h
            · exact Or.inr (Or.inr ⟨h, hi⟩)
            · exact Or.inl h
          · intro h
            rcases h with h | ⟨-, hc⟩ | ⟨hk, -⟩
            · exact Or.inr h
            · exact absurd hc ha
            · exact Or.inl hk
        · rw [if_neg hi, if_neg ha]
          constructor
          · intro h
            exact Or.inl h
          · intro h
            rcases h with h | ⟨-, hc⟩ | ⟨-, hc⟩
            · exact h
            · exact absurd hc ha
            · exact absurd hc hi
    rw [hstep]
    simp only [List.exists_mem_cons_iff]
    constructor
    · intro h
      rcases h with (h | (⟨hj, ht⟩ | ⟨hk, ht⟩)) | ((⟨hj, hts⟩) | (⟨hk, hts⟩))
      · exact Or.inl h
      · exact Or.inr (Or.inl ⟨hj, Or.inl ht⟩)
      · exact Or.inr (Or.inr ⟨hk, Or.inl ht⟩)
      · exact Or.inr (Or.inl ⟨hj, Or.inr hts⟩)
      · exact Or.inr (Or.inr ⟨hk, Or.inr hts⟩)
    · intro h
      rcases h with h | (⟨hj, ht | hts⟩) | (⟨hk, ht | hts⟩)
      · exact Or.inl (Or.inl h)
      · exact Or.inl (Or.inr (Or.inl ⟨hj, ht⟩))
      · exact Or.inr (Or.inl ⟨hj, hts⟩)
      · exact Or.inl (Or.inr (Or.inr ⟨hk, ht⟩))
      · exact Or.inr (Or.inr ⟨hk, hts⟩)

theorem mem_depsFold (nameOf : String → String) (deps : List String)
    (init : Finset String) (x : String) :
    (x ∈ deps.foldl (fun acc dep =>
        match assocLookup PACKAGES_WITH_EXTRA_DEPENDENCIES (nameOf dep) with
        | some extras => acc ∪ extras.toFinset
        | none => acc) init) ↔
      (x ∈ init ∨ ∃ d ∈ deps, ∃ extras,
        assocLookup PACKAGES_WITH_EXTRA_DEPENDENCIES (nameOf d) = some extras ∧
        x ∈ extras) := by
  induction deps generalizing init with
  | nil => simp
  | cons d ds ih =>
    rw [List.foldl_cons, ih]
    have hstep : (x ∈ (match assocLookup PACKAGES_WITH_EXTRA_DEPENDENCIES (nameOf d) with
        | some extras => init ∪ extras.toFinset
        | none => init)) ↔
        (x ∈ init ∨ ∃ extras,
          assocLookup PACKAGES_WITH_EXTRA_DEPENDENCIES (nameOf d) = some extras ∧
          x ∈ extras) := by
      cases hl : assocLookup PACKAGES_WITH_EXTRA_DEPENDENCIES (nameOf d) with
      | some extras =>
        simp only [Finset.mem_union, List.mem_toFinset]
        constructor
        · intro h
          rcases h with h | h
          · exact Or.inl h
          · exact Or.inr ⟨extras, rfl, h⟩
        · intro h
          rcases h with h | ⟨extras', he, hx⟩
          · exact Or.inl h
          · cases he
            exact Or.inr hx
      | none =>
        constructor
        · intro h
          exact Or.inl h
        · intro h
          rcases h with h | ⟨extras', he, -⟩
          · exact h
          · cases he
    rw [hstep]
    simp only [List.exists_mem_cons_iff]
    constructor
    · intro h
      rcases h with (h | he) | hds
      · exact Or.inl h
      · exact Or.inr (Or.inl he)
      · exact Or.inr (Or.inr hds)
    · intro h
      rcases h with h | he | hds
      · exact Or.inl (Or.inl h)
      · exact Or.inl (Or.inr he)
      · exact Or.inr hds

/-- C6: the extra dependencies not managed by cargo are exactly the pair
ext-jna, ext-protobuf when some target is android-like, plus
ext-swift-keychain-wrapper when some target is ios-like, plus, for every
already-resolved dependency whose name is a key of
PACKAGES_WITH_EXTRA_DEPENDENCIES, the mapped extra package ids, and
nothing else. -/
theorem C6_extra_dependencies (nameOf : String → String) (targets deps : List String)
    (x : String) :
    x ∈ get_extra_dependencies_not_managed_by_cargo nameOf targets deps ↔
      (((x = "ext-jna" ∨ x = "ext-protobuf") ∧ ∃ t ∈ targets, target_is_android t = true) ∨
       (x = "ext-swift-keychain-wrapper" ∧ ∃ t ∈ targets, target_is_ios t = true) ∨
       (∃ d ∈ deps, ∃ extras,
         assocLookup PACKAGES_WITH_EXTRA_DEPENDENCIES (nameOf d) = some extras ∧
         x ∈ extras)) := by
  unfold get_extra_dependencies_not_managed_by_cargo
  rw [mem_depsFold, mem_targetsFold]
  simp only [Finset.not_mem_empty, false_or]
  rw [or_assoc]

/-- C10: _fetch_license_text returns embedded literal text directly when
present; otherwise it fetches remotely exactly when the license-file
reference starts with the literal prefix https://, and treats every
other reference, an http:// URL included, as a local path under the
directory of the dependency's manifest. -/
theorem C10_fetch_classification (licenseText : Option String)
    (licenseFile manifestPath : String) :
    (∀ t, licenseText = some t →
       fetch_license_text licenseText licenseFile manifestPath = .literal t)
  ∧ (licenseText = none →
      ((∃ u, fetch_license_text licenseText licenseFile manifestPath = .remote u) ↔
        strLeads "https://" licenseFile = true))
  ∧ (licenseText = none → strLeads "https://" licenseFile = true →
       fetch_license_text licenseText licenseFile manifestPath = .remote licenseFile)
  ∧ (licenseText = none → strLeads "https://" licenseFile = false →
       fetch_license_text licenseText licenseFile manifestPath =
         .localFile (joinPath (dirname manifestPath) licenseFile)) := by
  refine ⟨?_, ?_, ?_, ?_⟩
  · intro t ht
    rw [ht]
    rfl
  · intro ht
    subst ht
    constructor
    · rintro ⟨u, hu⟩
      simp only [fetch_license_text] at hu
      by_cases hs : strLeads "https://" licenseFile = true
      · exact hs
      · rw [if_neg hs] at hu
        cases hu
    · intro hs
      refine ⟨licenseFile, ?_⟩
      simp only [fetch_license_text, if_pos hs]
  · intro ht hs
    subst ht
    simp only [fetch_license_text, if_pos hs]
  · intro ht hs
    subst ht
    simp only [fetch_license_text]
    rw [if_neg (by rw [hs]; exact Bool.false_ne_true)]

/-- C10 witness: an http:// reference is read as a local file under the
manifest directory, an https:// reference is fetched remotely, and
embedded text is returned directly. -/
theorem C10_fetch_classification_witness :
    fetch_license_text none "http://example.com/LICENSE" "/ws/pkg/Cargo.toml" =
      .localFile "/ws/pkg/http://example.com/LICENSE" ∧
    fetch_license_text none "https://example.com/LICENSE" "/ws/pkg/Cargo.toml" =
      .remote "https://example.com/LICENSE" ∧
    fetch_license_text (some "text") "LICENSE" "/ws/pkg/Cargo.toml" = .literal "text" := by
  refine ⟨?_, ?_, ?_⟩
  · have h := (C10_fetch_classification none "http://example.com/LICENSE"
      "/ws/pkg/Cargo.toml").2.2.2 rfl (by decide)
    rw [h]
    decide
  · exact (C10_fetch_classification none "https://example.com/LICENSE"
      "/ws/pkg/Cargo.toml").2.2.1 rfl (by decide)
  · exact (C10_fetch_classification (some "text") "LICENSE" "/ws/pkg/Cargo.toml").1 "text" rfl

/-- C7: in a group built by group_dependencies_for_printing, when the
grouping key is exactly the shared Apache-2.0 key, the canonical license
text is the text of the first member, in the sorted (name, id) member
order, whose text contains the placeholder [yyyy] and does not contain
NSS; when no member qualifies the build raises the fatal Apache error;
for every other key the canonical text is the first sorted member's
text. -/
theorem C7_apache_canonical_text (k : GroupKey) (ms : List Record) (hne : ms ≠ []) :
    (k = apacheKey →
       ((∀ d ∈ ms, apacheOkText d = false) → buildGroup (k, ms) = .error apacheErrMsg)
     ∧ (∀ pre d post, sortLe depLe ms = pre ++ d :: post → apacheOkText d = true →
          (∀ x ∈ pre, apacheOkText x = false) →
          ∃ g, buildGroup (k, ms) = .ok g ∧ g.license_text = d.license_text ∧
            g.dependencies = pre ++ d :: post))
  ∧ (k ≠ apacheKey → ∀ d rest, sortLe depLe ms = d :: rest →
       ∃ g, buildGroup (k, ms) = .ok g ∧ g.license_text = d.license_text ∧
         g.dependencies = d :: rest) := by
  have hsne : sortLe depLe ms ≠ [] := by
    rw [Ne, sortLe_eq_nil_iff]
    exact hne
  constructor
  · intro hk
    constructor
    · intro hfail
      apply buildGroupSorted_error k (sortLe depLe ms) hsne hk
      intro d hd
      exact hfail d ((mem_sortLe _ _ _).1 hd)
    · intro pre d post hsort hdok hpre
      have hfind : (sortLe depLe ms).find? apacheOkText = some d := by
        rw [hsort, List.find?_eq_some]
        refine ⟨hdok, pre, post, rfl, fun x hx => ?_⟩
        rw [hpre x hx]
        rfl
      have hok : ∃ g, buildGroupSorted k (sortLe depLe ms) = .ok g := by
        apply buildGroupSorted_ok k (sortLe depLe ms) hsne
        refine Or.inr ⟨d, ?_, hdok⟩
        rw [hsort]
        exact List.mem_append.2 (Or.inr (List.mem_cons_self d post))
      rcases hok with ⟨g, hg⟩
      refine ⟨g, hg, ?_, ?_⟩
      · rcases (buildGroupSorted_ok_text k (sortLe depLe ms) g hg).2 hk with ⟨d', hd', htext⟩
        rw [hfind] at hd'
        cases hd'
        exact htext
      · have := (buildGroupSorted_ok_deps k (sortLe depLe ms) g hg).1
        rw [this, hsort]
  · intro hk d rest hsort
    have hok : ∃ g, buildGroupSorted k (sortLe depLe ms) = .ok g :=
      buildGroupSorted_ok k (sortLe depLe ms) hsne (Or.inl hk)
    rcases hok with ⟨g, hg⟩
    refine ⟨g, hg, ?_, ?_⟩
    · exact (buildGroupSorted_ok_text k (sortLe depLe ms) g hg).1 hk d rest hsort
    · have := (buildGroupSorted_ok_deps k (sortLe depLe ms) g hg).1
      rw [this, hsort]

/-- C7 witness: an Apache group whose sorted members start with the
placeholder-bearing record yields that record's text; an Apache group
whose only member is NSS-customized fails fatally; an MIT group takes
its first sorted member's text. -/
theorem C7_apache_canonical_text_witness :
    (∃ g, buildGroup (apacheKey, [apNss, apGeneric]) = .ok g ∧
       g.license_text = "Copyright [yyyy] owner" ∧ g.dependencies = [apGeneric, apNss]) ∧
    buildGroup (apacheKey, [apNss]) = .error apacheErrMsg ∧
    (∃ g, buildGroup (.byText "MIT" (stripAllWs "mit license text"), [sampleMit]) = .ok g ∧
       g.license_text = "mit license text" ∧ g.dependencies = [sampleMit]) := by
  refine ⟨?_, ?_, ?_⟩
  · have h := ((C7_apache_canonical_text apacheKey [apNss, apGeneric] (by decide)).1 rfl).2
      [] apGeneric [apNss] (by decide) (by decide) (by decide)
    simpa using h
  · exact ((C7_apache_canonical_text apacheKey [apNss] (by decide)).1 rfl).1 (by decide)
  · have h := (C7_apache_canonical_text (.byText "MIT" (stripAllWs "mit license text"))
      [sampleMit] (by decide)).2 (by decide) sampleMit [] (by decide)
    simpa using h

/-- C8: the two enumerated compound license expressions pass through
pick_most_acceptable_license unchanged, without splitting or preference
selection. -/
theorem C8_compound_exceptions (id : String) :
    pick_most_acceptable_license id "(Apache-2.0 OR MIT) AND BSD-3-Clause" =
      .ok "(Apache-2.0 OR MIT) AND BSD-3-Clause" ∧
    pick_most_acceptable_license id "(MIT OR Apache-2.0) AND Unicode-3.0" =
      .ok "(MIT OR Apache-2.0) AND Unicode-3.0" := by
  constructor
  · rfl
  · rfl

/-- C4 (amended): group_dependencies_for_printing is deterministic with
respect to input order provided the catalog invariant of pairwise
distinct (name, id) pairs holds and no two groups share a sort key: for
any two permutations of such a list of license records it produces the
identical ordered list of groups, the groups ordered by preference-list
index of their license (unlisted licenses after all listed ones) and
then by the sorted member name list, with records within each group
ordered by (name, id).  Without the distinct-sort-key proviso, tied
groups keep their input-dependent insertion order through Python's
stable sort, so the unconditional claim fails. -/
theorem C4_grouping_deterministic (l₁ l₂ : List Record)
    (hperm : List.Perm l₁ l₂)
    (hids : ((l₁.map (fun r => (r.name, r.id))).Nodup))
    (hkeys : ((groupSortKeys l₁).Nodup)) :
    group_dependencies_for_printing l₁ = group_dependencies_for_printing l₂ ∧
    ∀ gs, group_dependencies_for_printing l₁ = .ok gs →
      gs.Pairwise (fun g h => groupLe g h = true) ∧
      ∀ g ∈ gs, g.dependencies.Pairwise (fun a b => depLe a b = true) :=
  ⟨groupPrinting_perm_core l₁ l₂ hperm hids hkeys,
   fun gs h => groupPrinting_ok_sorted l₁ gs h⟩

/-- C4 witness: on the spec's two-record example, an MPL-2.0 record and
an MIT record, both input orders produce the identical group list,
ordered MPL-2.0 before MIT. -/
theorem C4_grouping_deterministic_witness :
    group_dependencies_for_printing [sampleMpl, sampleMit] =
      group_dependencies_for_printing [sampleMit, sampleMpl] ∧
    (group_dependencies_for_printing [sampleMpl, sampleMit]).map
      (fun gs => gs.map Group.license) = .ok ["MPL-2.0", "MIT"] :=
  ⟨(C4_grouping_deterministic [sampleMpl, sampleMit] [sampleMit, sampleMpl]
      (by decide) (by decide) (by decide)).1,
   by decide⟩

/-- C4 counterexample: two records named foo under two distinct unlisted
licenses form two groups with the identical sort key (11, [foo]); the
stable group sort then preserves their key-insertion order, which
follows the input order, so swapping the two input records changes the
resulting group list and the unconditional determinism claim is false. -/
theorem C4_grouping_counterexample :
    List.Perm [tieA, tieB] [tieB, tieA] ∧
    ((([tieA, tieB].map (fun r => (r.name, r.id))).Nodup)) ∧
    groupSortKeys [tieA, tieB] = [(11, ["foo"]), (11, ["foo"])] ∧
    group_dependencies_for_printing [tieA, tieB] ≠
      group_dependencies_for_printing [tieB, tieA] := by
  refine ⟨by decide, by decide, by decide, by decide⟩

end DepSummary
